/-
Verification of the forest actor-core specification against the source.

This file shallowly embeds the parts of the code base that the claims
C1..C10 are about:

* the payment-channel actor (src/vm/actor/src/builtin/paych/mod.rs),
* the storage-market actor's deal validation and sector-terminate paths
  (src/vm/actor/src/builtin/market/mod.rs),
* the HAMT pointer codec and clean-up (src/ipld/hamt/src/pointer.rs),
* the address codec (src/vm/address/src/lib.rs),
* the bit field (src/utils/bitfield/src/lib.rs).

Conventions used throughout the embedding:

* Rust `u64` values are `Nat` (bounds are stated as hypotheses where they
  matter), `i64` chain epochs are `Int`, and `BigInt` token amounts are
  `Int`.  The `TokenAmount` alias of the vm crate is forced to be `BigInt`
  by its uses inside src (e.g. the market actor adds `BigInt` values to
  token amounts and passes a `BigInt` directly as the value of a send), so
  token arithmetic is embedded as `Int` arithmetic.
* Byte strings are `List Nat` with every element below 256; text strings
  are `List Nat` of Unicode scalar values.
* Fallible Rust functions return `Except`; a reachable Rust panic is
  embedded as a dedicated result constructor, never silently dropped.
* External capabilities (signature verification, blake2b hashing, runtime
  sends, policy bound tables) are parameters of the embedded functions,
  exactly as the runtime/syscall objects are parameters of the actor code.
-/
import Mathlib

set_option autoImplicit false

namespace Forest

/-! ## Common vm types (src/vm/src/lib.rs re-exports; exit codes per spec section 6) -/

/-- Exit codes of `ActorError` (spec section 6; vm exit_code module). -/
inductive ExitCode where
  | Ok
  | SysErrSenderInvalid
  | SysErrSenderStateInvalid
  | SysErrInvalidMethod
  | SysErrInsufficientFunds
  | SysErrOutOfGas
  | SysErrForbidden
  | SysErrorIllegalActor
  | SysErrorIllegalArgument
  | ErrIllegalArgument
  | ErrNotFound
  | ErrForbidden
  | ErrInsufficientFunds
  | ErrIllegalState
  | ErrSerialization
  | ErrPlaceholder
  deriving DecidableEq, Repr

/-- Typed actor error: exit code plus message (spec section 7). -/
structure ActorError where
  code : ExitCode
  msg : String
  deriving DecidableEq, Repr

/-- Chain epoch (`clock::ChainEpoch`, an `i64`). -/
abbrev ChainEpoch := Int

/-- Sentinel for an undefined epoch (`clock::EPOCH_UNDEFINED`). -/
def EPOCH_UNDEFINED : ChainEpoch := -1

/-- Token amount.  The vm `token` module is absent from src, but src forces
`TokenAmount` to be `num_bigint::BigInt` (the market actor passes a `BigInt`
directly as a send value and adds `BigInt` deltas to token amounts), so it
is embedded as `Int`. -/
abbrev TokenAmount := Int

/-- `num_bigint::BigInt::checked_sub`: subtraction of signed big integers
never fails, so the checked variant always returns `some`. -/
def checkedSub (a b : Int) : Option Int := some (a - b)

/-- Deal identifier (`vm::DealID`, a `u64`). -/
abbrev DealID := Nat

/-! ## Payment-channel actor (src/vm/actor/src/builtin/paych/mod.rs)

State and parameter types live in the absent `state.rs`/`types.rs` of the
paych module; their field lists are modelled from the spec (section 4.8 and
glossary) and from how `mod.rs` uses them.  Addresses are opaque `Nat`
identifiers here (the paych methods only compare them for equality and hand
them to sends). -/

/-- Lane state (spec section 4.8): `LaneState { id, redeemed, nonce }`. -/
structure LaneState where
  id : Nat
  redeemed : Int
  nonce : Nat
  deriving DecidableEq, Repr

/-- Lane merge entry of a voucher (spec section 4.8 / glossary). -/
structure LaneMerge where
  lane : Nat
  nonce : Nat
  deriving DecidableEq, Repr

/-- Optional extra verification hook carried by a voucher (spec 4.8:
`extra.actor`, `extra.method`, `extra.data`). -/
structure ModVerifyParams where
  actor : Nat
  method : Nat
  data : List Nat
  deriving DecidableEq, Repr

/-- Modelled from the spec: the signed voucher of the paych `types.rs`,
which is absent from src.  Field list per spec section 4.8 (timelocks,
secret pre-image, extra hook, lane, nonce, amount, min settle height,
merges) plus the optional signature that `update_channel_state` extracts. -/
structure SignedVoucher where
  timeLockMin : ChainEpoch
  timeLockMax : ChainEpoch
  secretPreImage : List Nat
  extra : Option ModVerifyParams
  lane : Nat
  nonce : Nat
  amount : Int
  minSettleHeight : ChainEpoch
  merges : List LaneMerge
  signature : Option (List Nat)
  deriving DecidableEq, Repr

/-- Channel state (spec section 4.8).  `from`/`to` are ID addresses of the
two account parties, modelled as opaque `Nat` identifiers. -/
structure PaychState where
  fromAddr : Nat
  toAddr : Nat
  toSend : TokenAmount
  settlingAt : ChainEpoch
  minSettleHeight : ChainEpoch
  laneStates : List LaneState
  deriving DecidableEq, Repr

/-- Modelled from the spec: `LANE_LIMIT` of the absent paych `types.rs`
("implementation-chosen, typically 256", spec section 4.8). -/
def LANE_LIMIT : Nat := 256

/-- Signed little-endian-ish integer encoding used by the voucher
serializer model. -/
def encInt (i : Int) : List Nat :=
  if i < 0 then [0, (-i).toNat] else [1, i.toNat]

/-- Length-prefixed byte-string encoding used by the voucher serializer
model. -/
def encBytes (l : List Nat) : List Nat := l.length :: l

/-- Encoding of one merge entry. -/
def encMerge (m : LaneMerge) : List Nat := [m.lane, m.nonce]

/-- Encoding of the optional extra hook. -/
def encExtra : Option ModVerifyParams → List Nat
  | none => [0]
  | some e => 1 :: e.actor :: e.method :: encBytes e.data

/-- Modelled from the spec: the canonical voucher encoding produced by
`to_vec(&sv)` (the `Serialize` impl lives in the absent paych `types.rs`).
Per spec section 4.8, "the voucher is encoded by excluding the signature
field": the spec-modelled encoder serializes every field of the voucher in
declaration order except `signature`.  The concrete byte layout stands for
DAG-CBOR; the claims only depend on which fields participate. -/
def encodeSignedVoucher (sv : SignedVoucher) : List Nat :=
  encInt sv.timeLockMin ++ encInt sv.timeLockMax ++ encBytes sv.secretPreImage ++
    encExtra sv.extra ++ [sv.lane, sv.nonce] ++ encInt sv.amount ++
    encInt sv.minSettleHeight ++
    (sv.merges.length :: (sv.merges.map encMerge).flatten)

/-- The unsigned bytes computed by `update_channel_state`
(paych mod.rs lines 109-115: `let sv_bz = to_vec(&sv)`); this is the
plaintext handed to the `verify_signature` syscall. -/
def svBz (sv : SignedVoucher) : List Nat := encodeSignedVoucher sv

/-- Runtime capabilities used by the paych methods, as parameters:
current epoch, current balance, the gas-charged signature-verification and
blake2b syscalls, and the effect of the optional `extra` send. -/
structure PaychEnv where
  currEpoch : ChainEpoch
  currBalance : TokenAmount
  verifySignature : List Nat → Nat → List Nat → Bool
  hashBlake2b : List Nat → List Nat
  extraSend : ModVerifyParams → List Nat → Except ActorError Unit

/-- Parameters of `UpdateChannelState` (voucher, secret, proof). -/
structure UcsParams where
  sv : SignedVoucher
  secret : List Nat
  proof : List Nat
  deriving Repr

/-- `find_lane` (paych mod.rs lines 323-329): binary search over the
id-sorted lane vector, returning the index of the lane with the given id
and whether it exists, or the insertion index.  Modelled by the sorted-list
semantics of `binary_search_by`: the first index whose lane id is not below
the searched id. -/
def findLane : List LaneState → Nat → Nat → Nat × Bool
  | [], i, _ => (i, false)
  | l :: rest, i, id =>
    if l.id < id then findLane rest (i + 1) id
    else if l.id = id then (i, true)
    else (i, false)

/-- List insertion at an index (Rust `Vec::insert`). -/
def insertAt {α : Type} : List α → Nat → α → List α
  | l, 0, a => a :: l
  | [], _ + 1, a => [a]
  | x :: xs, i + 1, a => x :: insertAt xs i a

/-- Default lane used for the (always in-bounds) vector indexing of the
source. -/
def dfltLane : LaneState := ⟨0, 0, 0⟩

/-- The merge loop of `update_channel_state` (paych mod.rs lines 189-214):
sums the already-redeemed value of all merged lanes and advances their
nonces, rejecting self-merges, outdated merge nonces and unknown lanes. -/
def processMerges (svLane : Nat) :
    List LaneMerge → List LaneState → Int → Except ActorError (List LaneState × Int)
  | [], lanes, redeemed => .ok (lanes, redeemed)
  | m :: rest, lanes, redeemed =>
    if m.lane = svLane then
      .error ⟨.ErrIllegalArgument, "voucher cannot merge lanes into its own lane"⟩
    else
      match findLane lanes 0 m.lane with
      | (i, true) =>
        let l := lanes.getD i dfltLane
        if l.nonce ≥ m.nonce then
          .error ⟨.ErrIllegalArgument, "merged lane in voucher has outdated nonce, cannot redeem"⟩
        else
          processMerges svLane rest (lanes.set i { l with nonce := m.nonce }) (redeemed + l.redeemed)
      | (_, false) =>
        .error ⟨.ErrIllegalArgument, "voucher specifies invalid merge lane"⟩

/-- The settling-height adjustment at the end of the transaction of
`update_channel_state` (paych mod.rs lines 244-252); it never touches
`toSend`. -/
def ucsSettleAdjust (sv : SignedVoucher) (st1 : PaychState) : PaychState :=
  if sv.minSettleHeight ≠ 0 then
    let s1 :=
      if st1.settlingAt ≠ 0 ∧ st1.settlingAt < sv.minSettleHeight then
        { st1 with settlingAt := sv.minSettleHeight }
      else st1
    if s1.minSettleHeight < sv.minSettleHeight then
      { s1 with minSettleHeight := sv.minSettleHeight }
    else s1
  else st1

/-- The state transaction of `update_channel_state`
(paych mod.rs lines 161-254), as a pure function of the pre-state. -/
def ucsTransaction (sv : SignedVoucher) (currBal : TokenAmount) (st : PaychState) :
    Except ActorError PaychState :=
  let (idx, exists_) := findLane st.laneStates 0 sv.lane
  let lanes0E : Except ActorError (List LaneState) :=
    if exists_ then .ok st.laneStates
    else if st.laneStates.length ≥ LANE_LIMIT then
      .error ⟨.ErrIllegalArgument, "lane limit exceeded"⟩
    else .ok (insertAt st.laneStates idx ⟨sv.lane, 0, 0⟩)
  match lanes0E with
  | .error e => .error e
  | .ok lanes0 =>
    if (lanes0.getD idx dfltLane).nonce > sv.nonce then
      .error ⟨.ErrIllegalArgument, "voucher has an outdated nonce, cannot redeem"⟩
    else
      match processMerges sv.lane sv.merges lanes0 0 with
      | .error e => .error e
      | .ok (lanes1, redeemed) =>
        let l := lanes1.getD idx dfltLane
        let balanceDelta := sv.amount - (redeemed + l.redeemed)
        let lanes2 := lanes1.set idx { l with nonce := sv.nonce, redeemed := sv.amount }
        let newSendBalance := st.toSend + balanceDelta
        if newSendBalance < 0 then
          .error ⟨.ErrIllegalState, "voucher would leave channel balance negative"⟩
        else if newSendBalance > currBal then
          .error ⟨.ErrIllegalState, "not enough funds in channel to cover voucher"⟩
        else
          .ok (ucsSettleAdjust sv { st with laneStates := lanes2, toSend := newSendBalance })

/-- `Actor::update_channel_state` (paych mod.rs lines 85-255): caller
validation, signature verification over `svBz`, timelock and secret checks,
the optional extra send, then the state transaction. -/
def updateChannelState (env : PaychEnv) (st : PaychState) (caller : Nat)
    (params : UcsParams) : Except ActorError PaychState :=
  if caller ≠ st.fromAddr ∧ caller ≠ st.toAddr then
    .error ⟨.SysErrForbidden, "caller not in channel"⟩
  else
    let signer := if caller = st.fromAddr then st.toAddr else st.fromAddr
    let sv := params.sv
    match sv.signature with
    | none => .error ⟨.ErrIllegalArgument, "voucher has no signature"⟩
    | some sig =>
      if ¬ env.verifySignature sig signer (svBz sv) then
        .error ⟨.ErrIllegalArgument, "voucher signature invalid"⟩
      else if env.currEpoch < sv.timeLockMin then
        .error ⟨.ErrIllegalArgument, "cannot use this voucher yet"⟩
      else if sv.timeLockMax ≠ 0 ∧ env.currEpoch > sv.timeLockMax then
        .error ⟨.ErrIllegalArgument, "this voucher has expired"⟩
      else if sv.secretPreImage ≠ [] ∧ env.hashBlake2b params.secret ≠ sv.secretPreImage then
        .error ⟨.ErrIllegalArgument, "incorrect secret"⟩
      else
        let extraRes : Except ActorError Unit :=
          match sv.extra with
          | some extra => env.extraSend extra params.proof
          | none => .ok ()
        match extraRes with
        | .error e => .error e
        | .ok _ => ucsTransaction sv env.currBalance st

/-- `Actor::collect` (paych mod.rs lines 283-320).  Returns the post-state
together with the list of `(recipient, amount)` sends it performs.  An
error return happens before any send or state mutation, so the channel
state is unchanged in that case. -/
def collect (env : PaychEnv) (st : PaychState) (caller : Nat) :
    Except ActorError (PaychState × List (Nat × TokenAmount)) :=
  if caller ≠ st.fromAddr ∧ caller ≠ st.toAddr then
    .error ⟨.SysErrForbidden, "caller not in channel"⟩
  else if st.settlingAt = 0 ∨ env.currEpoch < st.settlingAt then
    .error ⟨.ErrForbidden, "payment channel not settling or settled"⟩
  else
    match checkedSub env.currBalance st.toSend with
    | none => .error ⟨.ErrInsufficientFunds, "Cannot send more than remaining balance"⟩
    | some remBal =>
      .ok ({ st with toSend := 0 }, [(st.fromAddr, remBal), (st.toAddr, st.toSend)])

/-! ## Storage-market actor (src/vm/actor/src/builtin/market/mod.rs)

The deal types live in the absent `deal.rs`; their field list is modelled
from the spec (section 4.7) and from how `mod.rs` uses them.  Addresses and
CIDs are opaque `Nat` identifiers here. -/

/-- Modelled from the spec: the deal proposal of the absent market
`deal.rs` (spec section 4.7: piece cid/size, verified flag, client,
provider, epochs, price and the two collateral fields). -/
structure DealProposal where
  pieceCid : Nat
  pieceSize : Nat
  verifiedDeal : Bool
  client : Nat
  provider : Nat
  startEpoch : ChainEpoch
  endEpoch : ChainEpoch
  storagePricePerEpoch : Int
  providerCollateral : Int
  clientCollateral : Int
  deriving DecidableEq, Repr

/-- `DealProposal::duration()` (absent `deal.rs`; spec 4.7:
`deal_weight = duration × piece_size` with `duration = end - start`). -/
def DealProposal.duration (p : DealProposal) : ChainEpoch := p.endEpoch - p.startEpoch

/-- A deal proposal together with the client signature over it. -/
structure ClientDealProposal where
  proposal : DealProposal
  clientSignature : List Nat
  deriving DecidableEq, Repr

/-- Deal state record (spec section 4.7). -/
structure DealState where
  sectorStartEpoch : ChainEpoch
  lastUpdatedEpoch : ChainEpoch
  slashEpoch : ChainEpoch
  deriving DecidableEq, Repr

/-- Runtime capabilities and policy tables used by `validate_deal`.  The
policy bound functions live in the absent market `policy.rs`; they enter
the embedding as opaque parameters (the claims depend on which proposal
field is compared against them, not on their values).  The provider
collateral bounds already close over the network QA power, baseline power
and circulating supply that the source threads through. -/
structure MarketEnv where
  currEpoch : ChainEpoch
  verifyProposalSig : List Nat → Nat → DealProposal → Bool
  pieceSizeValid : Nat → Bool
  pieceCidPrefixOk : Nat → Bool
  dealDurationBounds : Nat → Int × Int
  dealPricePerEpochBounds : Nat → Int → Int × Int
  dealProviderCollateralBounds : Nat → Bool → Int × Int
  dealClientCollateralBounds : Nat → Int → Int × Int

/-- `deal_proposal_is_internally_valid` (market mod.rs lines 884-916):
end/start sanity, then client-signature verification over the serialized
proposal. -/
def dealProposalIsInternallyValid (env : MarketEnv) (deal : ClientDealProposal) :
    Except ActorError Unit :=
  if deal.proposal.endEpoch ≤ deal.proposal.startEpoch then
    .error ⟨.ErrIllegalArgument, "proposal end epoch before start epoch"⟩
  else if ¬ env.verifyProposalSig deal.clientSignature deal.proposal.client deal.proposal then
    .error ⟨.ErrIllegalArgument, "signature proposal invalid"⟩
  else
    .ok ()

/-- `validate_deal` (market mod.rs lines 815-882), checks in source order:
internal validity, piece size, piece CID prefix, end after start, start not
elapsed, duration bounds, price bounds, provider collateral against the
provider bounds, and finally — exactly as written in the source — the
proposal's `provider_collateral` field against the *client* collateral
bounds. -/
def validateDeal (env : MarketEnv) (deal : ClientDealProposal) : Except ActorError Unit := do
  dealProposalIsInternallyValid env deal
  let proposal := deal.proposal
  if ¬ env.pieceSizeValid proposal.pieceSize then
    Except.error ⟨.ErrIllegalArgument, "proposal piece size is invalid"⟩
  else if ¬ env.pieceCidPrefixOk proposal.pieceCid then
    Except.error ⟨.ErrIllegalArgument, "proposal PieceCID undefined"⟩
  else if proposal.endEpoch ≤ proposal.startEpoch then
    Except.error ⟨.ErrIllegalArgument, "proposal end before start"⟩
  else if env.currEpoch > proposal.startEpoch then
    Except.error ⟨.ErrIllegalArgument, "Deal start epoch has already elapsed."⟩
  else
    let (minDur, maxDur) := env.dealDurationBounds proposal.pieceSize
    if proposal.duration < minDur ∨ proposal.duration > maxDur then
      Except.error ⟨.ErrIllegalArgument, "Deal duration out of bounds."⟩
    else
      let (minPrice, maxPrice) := env.dealPricePerEpochBounds proposal.pieceSize proposal.duration
      if proposal.storagePricePerEpoch < minPrice ∨ proposal.storagePricePerEpoch > maxPrice then
        Except.error ⟨.ErrIllegalArgument, "Storage price out of bounds."⟩
      else
        let (minProviderCollateral, maxProviderCollateral) :=
          env.dealProviderCollateralBounds proposal.pieceSize proposal.verifiedDeal
        if proposal.providerCollateral < minProviderCollateral ∨
            proposal.providerCollateral > maxProviderCollateral then
          Except.error ⟨.ErrIllegalArgument, "Provider collateral out of bounds."⟩
        else
          let (minClientCollateral, maxClientCollateral) :=
            env.dealClientCollateralBounds proposal.pieceSize proposal.duration
          if proposal.providerCollateral < minClientCollateral ∨
              proposal.providerCollateral > maxClientCollateral then
            Except.error ⟨.ErrIllegalArgument, "Client collateral out of bounds."⟩
          else
            Except.ok ()

/-- Result of a method body that may also panic (a Rust `assert_eq!`
failure), as opposed to returning a typed `ActorError`. -/
inductive MethodResult (σ : Type) where
  | ok (st : σ)
  | err (e : ActorError)
  | panicked (msg : String)
  deriving DecidableEq, Repr

/-- Association-list lookup standing for an AMT `get`. -/
def amtGet {α : Type} (m : List (Nat × α)) (k : Nat) : Option α :=
  (m.find? (fun p => p.1 == k)).map (fun p => p.2)

/-- Association-list update standing for an AMT `set`. -/
def amtSet {α : Type} (m : List (Nat × α)) (k : Nat) (v : α) : List (Nat × α) :=
  match m with
  | [] => [(k, v)]
  | (k0, v0) :: rest => if k0 = k then (k, v) :: rest else (k0, v0) :: amtSet rest k v

/-- Parameters of `OnMinerSectorsTerminate` (absent market `types.rs`;
spec 4.7 method 7: a termination epoch and the ids of the deals of the
terminated sectors). -/
structure OnMinerSectorsTerminateParams where
  epoch : ChainEpoch
  dealIds : List DealID
  deriving Repr

/-- The per-deal loop of `on_miners_sector_terminate`
(market mod.rs lines 498-539): missing proposals are skipped; a proposal
whose provider differs from the caller trips `assert_eq!` (a panic, not a
typed error); expired deals are skipped; a missing deal state is a typed
`ErrIllegalArgument`; already-slashed deals are skipped; otherwise the
deal state's `slash_epoch` is set to the termination epoch. -/
def terminateDeals (caller : Nat) (epoch : ChainEpoch)
    (proposals : List (Nat × DealProposal)) :
    List DealID → List (Nat × DealState) → MethodResult (List (Nat × DealState))
  | [], states => .ok states
  | id :: rest, states =>
    match amtGet proposals id with
    | none => terminateDeals caller epoch proposals rest states
    | some deal =>
      if deal.provider ≠ caller then
        .panicked "caller is not the provider of the deal"
      else if deal.endEpoch ≤ epoch then
        terminateDeals caller epoch proposals rest states
      else
        match amtGet states id with
        | none => .err ⟨.ErrIllegalArgument, "no state for deal"⟩
        | some st =>
          if st.slashEpoch ≠ EPOCH_UNDEFINED then
            terminateDeals caller epoch proposals rest states
          else
            terminateDeals caller epoch proposals rest
              (amtSet states id { st with slashEpoch := epoch })

/-- `Actor::on_miners_sector_terminate` (market mod.rs lines 480-546),
after the miner-type caller validation: the transaction body over the deal
proposals and deal states tables. -/
def onMinersSectorTerminate (caller : Nat) (params : OnMinerSectorsTerminateParams)
    (proposals : List (Nat × DealProposal)) (states : List (Nat × DealState)) :
    MethodResult (List (Nat × DealState)) :=
  terminateDeals caller params.epoch proposals params.dealIds states

/-! ## HAMT pointer (src/ipld/hamt/src/pointer.rs)

`MAX_ARRAY_WIDTH` lives in the absent hamt `lib.rs`; the spec (section 3)
fixes it at 3.  CIDs are opaque `Nat`; keys and values are type
parameters as in the source (`KeyValuePair<K>` holding an `Ipld` value). -/

/-- Modelled from the spec: `MAX_ARRAY_WIDTH` = 3 (spec section 3). -/
def MAX_ARRAY_WIDTH : Nat := 3

mutual
/-- `Pointer<K>`: a bucket of key-value pairs, a link CID, or a cached
child node. -/
inductive HPointer (K V : Type) where
  | values : List (K × V) → HPointer K V
  | link : Nat → HPointer K V
  | cache : HNode K V → HPointer K V

/-- `Node<K>` (absent `node.rs`): modelled from the spec as a bitmap plus
the compact pointer array; `clean` touches only the pointers. -/
inductive HNode (K V : Type) where
  | mk : Nat → List (HPointer K V) → HNode K V
end

/-- The pointer array of a node. -/
def HNode.pointers {K V : Type} : HNode K V → List (HPointer K V)
  | .mk _ ps => ps

/-- Errors of the hamt crate that `clean` can produce, plus a constructor
modelling the `unreachable!` panic on a non-cached pointer. -/
inductive HamtError where
  | zeroPointers
  | cleanOnNonCache
  deriving DecidableEq, Repr

/-- The inner loop body of `Pointer::clean` (pointer.rs lines 108-121):
push the pairs of one bucket onto the accumulated child values, giving up
(`none`) as soon as the accumulator already holds `MAX_ARRAY_WIDTH`
values. -/
def pushVals {K V : Type} : List (K × V) → List (K × V) → Option (List (K × V))
  | [], acc => some acc
  | kv :: rest, acc =>
    if acc.length = MAX_ARRAY_WIDTH then none else pushVals rest (acc ++ [kv])

/-- The scan of `Pointer::clean` over the cached child's pointers
(pointer.rs lines 108-121): `none` as soon as a pointer is not a bucket or
the running count exceeds `MAX_ARRAY_WIDTH`. -/
def collectVals {K V : Type} : List (HPointer K V) → List (K × V) → Option (List (K × V))
  | [], acc => some acc
  | .values kvs :: rest, acc =>
    match pushVals kvs acc with
    | some acc1 => collectVals rest acc1
    | none => none
  | .link _ :: _, _ => none
  | .cache _ :: _, _ => none

/-- `Pointer::clean` (pointer.rs lines 91-130).  In the source the scan's
give-up paths return `Ok(())` leaving `self` unchanged; here the unchanged
pointer is returned explicitly.  A non-cached receiver models the
`unreachable!` panic as a dedicated error. -/
def HPointer.clean {K V : Type} : HPointer K V → Except HamtError (HPointer K V)
  | .cache n =>
    match n.pointers with
    | [] => .error .zeroPointers
    | [p0] =>
      match p0 with
      | .values kvs => .ok (.values kvs)
      | _ => .ok (.cache n)
    | _ :: _ :: _ =>
      if n.pointers.length ≤ MAX_ARRAY_WIDTH then
        match collectVals n.pointers [] with
        | some childVals => .ok (.values childVals)
        | none => .ok (.cache n)
      else .ok (.cache n)
  | .values _ => .error .cleanOnNonCache
  | .link _ => .error .cleanOnNonCache

/-- Shapes a decoded CBOR map value can take for the pointer codec: a CID
link, a bucket of key-value pairs, or anything else. -/
inductive PEntryVal where
  | cidV : Nat → PEntryVal
  | valsV : List (Nat × Nat) → PEntryVal
  | otherV : PEntryVal
  deriving DecidableEq, Repr

/-- The two optional fields of the derived `PointerDeser` helper struct
(pointer.rs lines 58-65). -/
structure PointerDeser where
  vals : Option (List (Nat × Nat))
  cid : Option Nat
  deriving DecidableEq, Repr

/-- Serde's derived struct deserialization from a CBOR map, specialized to
`PointerDeser`: fields `"1"` (bucket) and `"0"` (CID) are filled at most
once, a duplicate or ill-typed occurrence is an error, and unknown keys
are ignored (serde's default). -/
def parsePointerDeser : List (String × PEntryVal) → PointerDeser → Except String PointerDeser
  | [], acc => .ok acc
  | (k, v) :: rest, acc =>
    if k = "1" then
      match acc.vals with
      | some _ => .error "duplicate field 1"
      | none =>
        match v with
        | .valsV kvs => parsePointerDeser rest { acc with vals := some kvs }
        | _ => .error "invalid type for field 1"
    else if k = "0" then
      match acc.cid with
      | some _ => .error "duplicate field 0"
      | none =>
        match v with
        | .cidV c => parsePointerDeser rest { acc with cid := some c }
        | _ => .error "invalid type for field 0"
    else
      parsePointerDeser rest acc

/-- `Pointer::deserialize` (pointer.rs lines 50-73): build the
`PointerDeser` record from the map, then prefer the `vals` field, then the
`cid` field, and reject only when both are absent. -/
def deserializePointer (m : List (String × PEntryVal)) : Except String (HPointer Nat Nat) :=
  match parsePointerDeser m ⟨none, none⟩ with
  | .error e => .error e
  | .ok pd =>
    match pd.vals, pd.cid with
    | some v, _ => .ok (.values v)
    | none, some c => .ok (.link c)
    | none, none => .error "Unexpected pointer serialization"

/-! ## Address codec (src/vm/address/src/lib.rs)

The `network`, `protocol`, `payload` and `errors` submodules are absent
from src; they are modelled from the spec (sections 4.1 and 6), while the
codec pipeline itself (`from_bytes`, `from_str`, `to_bytes`, `encode`,
`from_leb_bytes`, `to_leb_bytes`, `checksum`, `validate_checksum`) follows
lib.rs line by line.  Text strings are lists of Unicode scalar values;
byte strings are lists of byte values.  The 4-byte blake2b checksum is an
external hash and enters as a parameter `H`. -/

/-- Address errors (spec section 4.1).  `panicSplit` models the
`split_off` underflow panic of `from_str` on base32 bodies that decode to
fewer than `CHECKSUM_HASH_LEN` bytes; it is unreachable from any claim. -/
inductive AddrError where
  | InvalidLength
  | UnknownProtocol
  | UnknownNetwork
  | InvalidPayload
  | InvalidChecksum
  | InvalidBLSLength : Nat → AddrError
  | panicSplit
  deriving DecidableEq, Repr

/-- Network tag of an address. -/
inductive Network where
  | Testnet
  | Mainnet
  deriving DecidableEq, Repr

/-- The network prefix character (`f`/`t`) as a scalar value. -/
def Network.toPrefixChar : Network → Nat
  | .Testnet => 116
  | .Mainnet => 102

/-- Address protocols. -/
inductive Protocol where
  | ID
  | Secp256k1
  | Actor
  | BLS
  deriving DecidableEq, Repr

/-- Protocol byte of the binary form. -/
def Protocol.toByte : Protocol → Nat
  | .ID => 0
  | .Secp256k1 => 1
  | .Actor => 2
  | .BLS => 3

/-- `Protocol::from_byte`. -/
def Protocol.fromByte (n : Nat) : Option Protocol :=
  if n = 0 then some .ID
  else if n = 1 then some .Secp256k1
  else if n = 2 then some .Actor
  else if n = 3 then some .BLS
  else none

/-- Protocol digit character (`0`-`3`) of the text form. -/
def Protocol.toDigitChar : Protocol → Nat
  | .ID => 48
  | .Secp256k1 => 49
  | .Actor => 50
  | .BLS => 51

/-- `to_leb_bytes` with explicit fuel (the value shrinks by a factor of
128 per emitted byte, so `id + 1` units of fuel always suffice). -/
def toLebBytesAux : Nat → Nat → List Nat
  | 0, _ => []
  | fuel + 1, id =>
    if id < 128 then [id] else (id % 128 + 128) :: toLebBytesAux fuel (id / 128)

/-- `to_leb_bytes` (lib.rs lines 253-261): unsigned LEB128 encoding,
low-order group first, continuation bit 0x80. -/
def toLebBytes (id : Nat) : List Nat := toLebBytesAux (id + 1) id

/-- The loop of `leb128::read::unsigned` for a `u64` target: accumulate
7-bit groups; running out of input is a read error; at shift 63 only the
bytes 0x00/0x01 are accepted (anything else overflows a `u64`); a byte
without the continuation bit terminates, ignoring any remaining input. -/
def readLebU64 : List Nat → Nat → Nat → Except AddrError Nat
  | [], _, _ => .error .InvalidPayload
  | b :: rest, shift, acc =>
    if shift = 63 ∧ b ≠ 0 ∧ b ≠ 1 then .error .InvalidPayload
    else
      let acc1 := acc + b % 128 * 2 ^ shift
      if b < 128 then .ok acc1 else readLebU64 rest (shift + 7) acc1

/-- `from_leb_bytes` (lib.rs lines 263-268): delegate to the LEB128
reader; trailing bytes after the terminating group are ignored.  The
absent `errors.rs` maps the read error into the address error type; per
the spec's error list it is modelled as `InvalidPayload`. -/
def fromLebBytes (bz : List Nat) : Except AddrError Nat := readLebU64 bz 0 0

/-- Payload of an address (absent `payload.rs`, modelled from the spec:
ID carries a `u64`, Secp256k1/Actor carry 20 hash bytes, BLS carries 48
key bytes). -/
inductive Payload where
  | ID : Nat → Payload
  | Secp256k1 : List Nat → Payload
  | Actor : List Nat → Payload
  | BLS : List Nat → Payload
  deriving DecidableEq, Repr

/-- Protocol of a payload. -/
def Payload.protocol : Payload → Protocol
  | .ID _ => .ID
  | .Secp256k1 _ => .Secp256k1
  | .Actor _ => .Actor
  | .BLS _ => .BLS

/-- `Payload::to_raw_bytes`: the payload bytes without the protocol byte
(LEB128 for ID addresses). -/
def Payload.toRawBytes : Payload → List Nat
  | .ID id => toLebBytes id
  | .Secp256k1 bz => bz
  | .Actor bz => bz
  | .BLS bz => bz

/-- Modelled from the spec: `Payload::new` of the absent `payload.rs`
decodes the raw payload bytes for a given protocol — LEB128 for ID, and
fixed 20/48-byte strings for the hash/key protocols (a wrong length is
`InvalidPayload` per the spec's error list). -/
def Payload.new (pr : Protocol) (bz : List Nat) : Except AddrError Payload :=
  match pr with
  | .ID => (fromLebBytes bz).map Payload.ID
  | .Secp256k1 => if bz.length = 20 then .ok (.Secp256k1 bz) else .error .InvalidPayload
  | .Actor => if bz.length = 20 then .ok (.Actor bz) else .error .InvalidPayload
  | .BLS => if bz.length = 48 then .ok (.BLS bz) else .error .InvalidPayload

/-- `Address`: network plus payload.  Equality is the derived structural
equality of the source (`#[derive(PartialEq, Eq, ...)]`), which compares
the network as well as the payload. -/
structure Address where
  network : Network
  payload : Payload
  deriving DecidableEq, Repr

/-- `NETWORK_DEFAULT` (lib.rs line 34). -/
def NETWORK_DEFAULT : Network := .Testnet

/-- `Address::new_id` (lib.rs lines 64-69): always uses the default
network. -/
def Address.newId (id : Nat) : Address := ⟨NETWORK_DEFAULT, .ID id⟩

/-- `Address::to_bytes` (lib.rs lines 128-130 with `Payload::to_bytes`):
one protocol byte followed by the raw payload bytes. -/
def Address.toBytes (a : Address) : List Nat :=
  a.payload.protocol.toByte :: a.payload.toRawBytes

/-- `Address::from_bytes` (lib.rs lines 54-61): at least two bytes,
protocol byte, then payload decode; the network is always the default. -/
def Address.fromBytes (bz : List Nat) : Except AddrError Address :=
  if bz.length < 2 then .error .InvalidLength
  else
    match bz with
    | [] => .error .InvalidLength
    | pb :: rest =>
      match Protocol.fromByte pb with
      | none => .error .UnknownProtocol
      | some pr => (Payload.new pr rest).map (fun p => ⟨NETWORK_DEFAULT, p⟩)

/-! ### Base32 (RFC 4648 lower-case alphabet, no padding)

Model of the `data_encoding` encoder/decoder that lib.rs instantiates
with the alphabet `abcdefghijklmnopqrstuvwxyz234567` (lines 21-24). -/

/-- The eight bits of a byte, most significant first. -/
def byteBits (b : Nat) : List Bool :=
  [b.testBit 7, b.testBit 6, b.testBit 5, b.testBit 4,
   b.testBit 3, b.testBit 2, b.testBit 1, b.testBit 0]

/-- Bit stream of a byte string. -/
def bitsOfBytes (bs : List Nat) : List Bool := (bs.map byteBits).flatten

/-- Numeric value of one bit. -/
def bitVal (b : Bool) : Nat := cond b 1 0

/-- Big-endian numeric value of a bit list. -/
def valOfBits (l : List Bool) : Nat := l.foldl (fun acc b => 2 * acc + bitVal b) 0

/-- Regroup a bit stream into bytes, eight bits at a time; a final group
of fewer than eight bits yields no byte (the decoder only calls this on
an 8-aligned prefix). -/
def bytesOfBits : List Bool → List Nat
  | b0 :: b1 :: b2 :: b3 :: b4 :: b5 :: b6 :: b7 :: rest =>
    valOfBits [b0, b1, b2, b3, b4, b5, b6, b7] :: bytesOfBits rest
  | _ => []

/-- The five bits of a base32 symbol value, most significant first. -/
def bits5 (v : Nat) : List Bool :=
  [v.testBit 4, v.testBit 3, v.testBit 2, v.testBit 1, v.testBit 0]

/-- Regroup a bit stream into base32 symbol values, five bits at a time,
zero-padding the final partial group. -/
def chunks5 : List Bool → List Nat
  | [] => []
  | b0 :: b1 :: b2 :: b3 :: b4 :: rest => valOfBits [b0, b1, b2, b3, b4] :: chunks5 rest
  | l => [valOfBits (l ++ List.replicate (5 - l.length) false)]

/-- Symbol value to alphabet character (`a`-`z` then `2`-`7`). -/
def b32Char (v : Nat) : Nat := if v < 26 then 97 + v else 50 + (v - 26)

/-- Alphabet character to symbol value. -/
def b32Val (c : Nat) : Option Nat :=
  if 97 ≤ c ∧ c ≤ 122 then some (c - 97)
  else if 50 ≤ c ∧ c ≤ 55 then some (c - 50 + 26)
  else none

/-- Base32 encoding of a byte string (no padding). -/
def base32Encode (bs : List Nat) : List Nat := (chunks5 (bitsOfBytes bs)).map b32Char

/-- Symbol values of an encoded string; any character outside the
alphabet is a decode error (`InvalidPayload` per the spec's error list,
the absent `errors.rs` holding the concrete mapping). -/
def b32Vals : List Nat → Except AddrError (List Nat)
  | [] => .ok []
  | c :: rest =>
    match b32Val c with
    | none => .error .InvalidPayload
    | some v =>
      match b32Vals rest with
      | .ok vs => .ok (v :: vs)
      | .error e => .error e

/-- Base32 decoding: symbol values to a bit stream, whole bytes from its
8-aligned prefix, rejecting any set bit in the trailing padding. -/
def base32Decode (s : List Nat) : Except AddrError (List Nat) :=
  match b32Vals s with
  | .error e => .error e
  | .ok vs =>
    let bits := (vs.map bits5).flatten
    let nbytes := s.length * 5 / 8
    if (bits.drop (8 * nbytes)).any (fun b => b) then .error .InvalidPayload
    else .ok (bytesOfBits (bits.take (8 * nbytes)))

/-! ### Text form -/

/-- Decimal digits of a number, with explicit fuel (`n + 1` always
suffices since the value shrinks by a factor of ten per digit). -/
def toDecimalAux : Nat → Nat → List Nat
  | 0, _ => []
  | fuel + 1, n =>
    if n < 10 then [48 + n] else toDecimalAux fuel (n / 10) ++ [48 + n % 10]

/-- Decimal text of a `u64` (Rust `format!`). -/
def toDecimal (n : Nat) : List Nat := toDecimalAux (n + 1) n

/-- The digit loop of Rust `u64::from_str`: every character must be a
decimal digit and the accumulated value must stay below `2^64`.  The parse
error is mapped to `InvalidPayload` (absent `errors.rs`; spec error
list). -/
def parseDigits : List Nat → Nat → Except AddrError Nat
  | [], acc => .ok acc
  | c :: rest, acc =>
    if 48 ≤ c ∧ c ≤ 57 then
      let acc1 := acc * 10 + (c - 48)
      if acc1 < 2 ^ 64 then parseDigits rest acc1 else .error .InvalidPayload
    else .error .InvalidPayload

/-- Rust `u64::from_str` as invoked by `raw.parse::<u64>()` (lib.rs line
172): an optional leading `+`, then at least one digit, no overflow. -/
def parseU64 (s : List Nat) : Except AddrError Nat :=
  let ds :=
    match s with
    | c :: rest => if c = 43 then rest else c :: rest
    | [] => []
  if ds.isEmpty then .error .InvalidPayload else parseDigits ds 0

/-- Total projection of the LEB128 decode used by `encode`'s
`.expect("should read encoded bytes")` (lib.rs line 248); the error case
is unreachable for `u64` ids. -/
def expectOkNat : Except AddrError Nat → Nat
  | .ok v => v
  | .error _ => 0

/-- `encode` (lib.rs lines 229-251): the textual form.  Non-ID protocols
emit network prefix, protocol digit and the base32 of payload bytes
followed by the 4-byte checksum of (protocol byte ‖ payload); ID
addresses emit the decimal of the LEB128-decoded payload. -/
def encodeAddr (H : List Nat → List Nat) (a : Address) : List Nat :=
  match a.payload with
  | .ID _ =>
    a.network.toPrefixChar :: 48 ::
      toDecimal (expectOkNat (fromLebBytes a.payload.toRawBytes))
  | _ =>
    let ingest := a.toBytes
    let bz := a.payload.toRawBytes ++ H ingest
    a.network.toPrefixChar :: a.payload.protocol.toDigitChar :: base32Encode bz

/-- `MAX_ADDRESS_LEN` (lib.rs line 29). -/
def MAX_ADDRESS_LEN : Nat := 84 + 2

/-- The network-prefix parse of `from_str` (lib.rs lines 146-152). -/
def parseNetworkChar (c : Nat) : Except AddrError Network :=
  if c = 116 then .ok .Testnet
  else if c = 102 then .ok .Mainnet
  else .error .UnknownNetwork

/-- The protocol-digit parse of `from_str` (lib.rs lines 155-163). -/
def parseProtocolChar (c : Nat) : Except AddrError Protocol :=
  if c = 48 then .ok .ID
  else if c = 49 then .ok .Secp256k1
  else if c = 50 then .ok .Actor
  else if c = 51 then .ok .BLS
  else .error .UnknownProtocol

/-- The ID branch of `from_str` (lib.rs lines 167-174): decimal parse with
the 20-character bound; note it returns `Address::new_id`, which *discards
the parsed network* in favour of the default. -/
def fromStrId (raw : List Nat) : Except AddrError Address :=
  if raw.length > 20 then .error .InvalidLength
  else (parseU64 raw).map Address.newId

/-- The base32 branch of `from_str` (lib.rs lines 176-201): decode,
split the checksum off with `split_off(len - 4)` — which panics (modelled
as `panicSplit`) when fewer than four bytes were decoded — then the
payload-length sanity checks, the checksum validation, and `Address::new`. -/
def fromStrBody (H : List Nat → List Nat) (network : Network) (protocol : Protocol)
    (raw : List Nat) : Except AddrError Address :=
  match base32Decode raw with
  | .error e => .error e
  | .ok payloadAll =>
    if payloadAll.length < 4 then .error .panicSplit
    else
      let cksm := payloadAll.drop (payloadAll.length - 4)
      let payload := payloadAll.take (payloadAll.length - 4)
      if (protocol = .Secp256k1 ∨ protocol = .Actor) ∧ payload.length ≠ 20 then
        .error .InvalidPayload
      else if protocol = .BLS ∧ payload.length ≠ 48 then
        .error .InvalidPayload
      else
        if ¬ H (protocol.toByte :: payload) = cksm then .error .InvalidChecksum
        else (Payload.new protocol payload).map (fun p => ⟨network, p⟩)

/-- `Address::from_str` (lib.rs lines 139-202): length bounds, network
prefix, protocol digit, then the ID or base32 branch. -/
def fromStr (H : List Nat → List Nat) (s : List Nat) : Except AddrError Address :=
  if s.length > MAX_ADDRESS_LEN ∨ s.length < 3 then .error .InvalidLength
  else
    match s with
    | [] => .error .InvalidLength
    | [_] => .error .InvalidLength
    | c0 :: c1 :: raw =>
      match parseNetworkChar c0 with
      | .error e => .error e
      | .ok network =>
        match parseProtocolChar c1 with
        | .error e => .error e
        | .ok protocol =>
          if protocol = .ID then fromStrId raw
          else fromStrBody H network protocol raw

/-- Well-formedness of an address as guaranteed by the Rust types: a
`u64` id, or hash/key payloads of the right length with byte-sized
elements. -/
def Address.WF : Address → Prop
  | ⟨_, .ID id⟩ => id < 2 ^ 64
  | ⟨_, .Secp256k1 bz⟩ => bz.length = 20 ∧ ∀ b ∈ bz, b < 256
  | ⟨_, .Actor bz⟩ => bz.length = 20 ∧ ∀ b ∈ bz, b < 256
  | ⟨_, .BLS bz⟩ => bz.length = 48 ∧ ∀ b ∈ bz, b < 256

instance : DecidablePred Address.WF := by
  intro a
  rcases a with ⟨n, p⟩
  rcases p with id | bz | bz | bz <;> simp [Address.WF] <;> infer_instance

/-- Good hash parameter: `blake2b_variable (·, 4)` always returns four
bytes. -/
def HGood (H : List Nat → List Nat) : Prop :=
  ∀ x, (H x).length = 4 ∧ ∀ b ∈ H x, b < 256

/-! ## BitField (src/utils/bitfield/src/lib.rs)

The struct holds the stored ranges plus the two pending hash-set buffers;
the struct's own documentation states the invariant that `set` and `unset`
never overlap.  Hash sets are `Finset Nat` (their iteration order is
normalized by the explicit `sort_unstable` calls of the source);
the stored ranges are a list of half-open `(start, end)` pairs. -/

/-- `BitField` (bitfield lib.rs lines 18-26). -/
structure BitField where
  ranges : List (Nat × Nat)
  set : Finset Nat
  unset : Finset Nat

/-- The bits covered by the stored ranges (`inner_ranges` flattened). -/
def innerBits (b : BitField) : Finset Nat :=
  b.ranges.foldr (fun r acc => Finset.Ico r.1 r.2 ∪ acc) ∅

/-- The singleton range made from the minimum pending set bit
(`first`, bitfield lib.rs lines 112-119): only the lowest bit of `set` is
a candidate. -/
def minSetRange (b : BitField) : Finset Nat :=
  if h : b.set.Nonempty then {b.set.min' h} else ∅

/-- `BitField::first` (bitfield lib.rs lines 107-125): merge the stored
ranges with the minimum pending set bit, scan in ascending order, and
return the first bit not pending unset. -/
def BitField.first (b : BitField) : Option Nat :=
  (((innerBits b ∪ minSetRange b).filter (fun i => i ∉ b.unset)).sort (· ≤ ·)).head?

/-- `BitField::iter` (bitfield lib.rs lines 128-149): merge the stored
ranges with all pending set bits in ascending order, filtering out bits
pending unset.  The embedded iterator is the resulting ascending list. -/
def BitField.iter (b : BitField) : List Nat :=
  ((innerBits b ∪ b.set).filter (fun i => i ∉ b.unset)).sort (· ≤ ·)

/-! ## Specification-side helpers for the HAMT and pointer-codec claims -/

/-- Whether a pointer is a bucket (`Pointer::Values`). -/
def HPointer.isBucket {K V : Type} : HPointer K V → Bool
  | .values _ => true
  | _ => false

/-- The pairs held by a pointer when it is a bucket. -/
def pointerVals {K V : Type} : HPointer K V → List (K × V)
  | .values kvs => kvs
  | _ => []

/-- All pairs held by the buckets of a pointer list, in order. -/
def flattenVals {K V : Type} (l : List (HPointer K V)) : List (K × V) :=
  (l.map pointerVals).flatten

/-- Number of values held by the buckets of a pointer list. -/
def totalVals {K V : Type} (l : List (HPointer K V)) : Nat :=
  (flattenVals l).length

/-- Whether a decoded map value is a CID link. -/
def isCidV : PEntryVal → Bool
  | .cidV _ => true
  | _ => false

/-- Whether a decoded map value is a bucket. -/
def isValsV : PEntryVal → Bool
  | .valsV _ => true
  | _ => false

/-- Association lookup of a map key. -/
def lookupKey (m : List (String × PEntryVal)) (k : String) : Option PEntryVal :=
  (m.find? (fun p => p.1 == k)).map (fun p => p.2)

/-- Number of occurrences of a key in a map. -/
def keyCount (m : List (String × PEntryVal)) (k : String) : Nat :=
  (m.filter (fun p => p.1 == k)).length

/-- Well-formedness of a pointer map as CBOR produces it: the `"0"` value
is a CID, the `"1"` value is a bucket, and each of the two keys occurs at
most once. -/
def pdWF (m : List (String × PEntryVal)) : Prop :=
  (∀ p ∈ m, p.1 = "0" → isCidV p.2 = true) ∧
  (∀ p ∈ m, p.1 = "1" → isValsV p.2 = true) ∧
  keyCount m "0" ≤ 1 ∧ keyCount m "1" ≤ 1

instance : DecidablePred pdWF := fun m => by
  unfold pdWF
  infer_instance

/-- The bucket content of a map, when the `"1"` key is present. -/
def vals1 (m : List (String × PEntryVal)) : Option (List (Nat × Nat)) :=
  match lookupKey m "1" with
  | some (.valsV kvs) => some kvs
  | _ => none

/-- The link content of a map, when the `"0"` key is present. -/
def cid0 (m : List (String × PEntryVal)) : Option Nat :=
  match lookupKey m "0" with
  | some (.cidV c) => some c
  | _ => none

/-! ## Concrete fixtures used by counterexamples and witnesses -/

/-- Policy/runtime environment fixture for the market claims: signatures
always verify, piece checks pass, duration bounds `[1, 100]`, price bounds
`[0, 100]`, provider collateral bounds `[0, 100]`, client collateral
bounds `[0, 10]`. -/
def mktEnvFix : MarketEnv where
  currEpoch := 0
  verifyProposalSig := fun _ _ _ => true
  pieceSizeValid := fun _ => true
  pieceCidPrefixOk := fun _ => true
  dealDurationBounds := fun _ => (1, 100)
  dealPricePerEpochBounds := fun _ _ => (0, 100)
  dealProviderCollateralBounds := fun _ _ => (0, 100)
  dealClientCollateralBounds := fun _ _ => (0, 10)

/-- A deal whose client collateral (1000) is far outside the client
collateral bounds `[0, 10]`, while its provider collateral (5) is inside
both bound pairs. -/
def dealFixA : ClientDealProposal where
  proposal :=
    { pieceCid := 0, pieceSize := 1, verifiedDeal := false, client := 1, provider := 2
      startEpoch := 5, endEpoch := 50, storagePricePerEpoch := 1
      providerCollateral := 5, clientCollateral := 1000 }
  clientSignature := [0]

/-- A deal whose client collateral (5) is inside the client collateral
bounds `[0, 10]`, while its provider collateral (50) is inside the
provider bounds `[0, 100]` but outside the client bounds. -/
def dealFixB : ClientDealProposal where
  proposal :=
    { pieceCid := 0, pieceSize := 1, verifiedDeal := false, client := 1, provider := 2
      startEpoch := 5, endEpoch := 50, storagePricePerEpoch := 1
      providerCollateral := 50, clientCollateral := 5 }
  clientSignature := [0]

/-- A deal proposal whose provider (actor 1) differs from the caller of
the terminate fixture (actor 2) and which has not yet expired at epoch
10. -/
def termProposalFix : DealProposal where
  pieceCid := 0
  pieceSize := 1
  verifiedDeal := false
  client := 3
  provider := 1
  startEpoch := 0
  endEpoch := 100
  storagePricePerEpoch := 0
  providerCollateral := 0
  clientCollateral := 0

/-- Paych runtime fixture: every signature verifies, epoch 0, channel
balance 10, the blake2b and extra-send capabilities are never consulted by
the fixture voucher. -/
def paychEnvFix : PaychEnv where
  currEpoch := 0
  currBalance := 10
  verifySignature := fun _ _ _ => true
  hashBlake2b := fun _ => []
  extraSend := fun _ _ => .ok ()

/-- Channel fixture: parties 1 and 2, lane 1 already redeemed up to 5
with nonce 1, `to_send = 5`. -/
def paychStFix : PaychState where
  fromAddr := 1
  toAddr := 2
  toSend := 5
  settlingAt := 0
  minSettleHeight := 0
  laneStates := [⟨1, 5, 1⟩]

/-- Voucher fixture: lane 1, nonce 2 (newer than the stored nonce 1) but
amount 3, below the 5 already redeemed on the lane. -/
def ucsParamsFix : UcsParams where
  sv :=
    { timeLockMin := 0, timeLockMax := 0, secretPreImage := [], extra := none
      lane := 1, nonce := 2, amount := 3, minSettleHeight := 0, merges := []
      signature := some [0] }
  secret := []
  proof := []

/-- Channel fixture for `Collect`: settled at epoch 1 (already reached),
`to_send = 4`. -/
def collectStFix : PaychState where
  fromAddr := 1
  toAddr := 2
  toSend := 4
  settlingAt := 1
  minSettleHeight := 0
  laneStates := []

/-- Paych runtime fixture for `Collect`: epoch 5, balance 10. -/
def collectEnvFix : PaychEnv where
  currEpoch := 5
  currBalance := 10
  verifySignature := fun _ _ _ => true
  hashBlake2b := fun _ => []
  extraSend := fun _ _ => .ok ()

/-- Concrete checksum-hash stand-in used only to instantiate theorems
that hold for every hash: it always returns four zero bytes. -/
def H0 : List Nat → List Nat := fun _ => [0, 0, 0, 0]

/-- Secp256k1 address fixture (Testnet, payload bytes 0..19). -/
def addrFix : Address := ⟨.Testnet, .Secp256k1 (List.range 20)⟩

/-- Mainnet ID address fixture. -/
def addrIdMainFix : Address := ⟨.Mainnet, .ID 0⟩

/-- Bit field fixture: stored range `[3, 5)`, pending set bit 1, pending
unset bit 4. -/
def bfFix : BitField where
  ranges := [(3, 5)]
  set := {1}
  unset := {4}

/-! ## Theorems -/

/-- C1: the spec (and the specs-actors reference it points to) requires
`PublishStorageDeals` validation to compare the proposal's
*client collateral* field against `deal_client_collateral_bounds`.  The
source compares `proposal.provider_collateral` against those bounds
instead (market mod.rs lines 873-879).  Evaluated at the failing inputs:
a deal whose client collateral (1000) lies far outside the client bounds
`[0, 10]` passes validation because its provider collateral (5) happens to
lie inside them, and a deal whose client collateral (5) is inside the
bounds is rejected as "Client collateral out of bounds" because its
provider collateral (50) is outside them. -/
theorem validate_deal_checks_provider_collateral_against_client_bounds :
    mktEnvFix.dealClientCollateralBounds dealFixA.proposal.pieceSize
        dealFixA.proposal.duration = (0, 10) ∧
    dealFixA.proposal.clientCollateral = 1000 ∧
    validateDeal mktEnvFix dealFixA = .ok () ∧
    dealFixB.proposal.clientCollateral = 5 ∧
    validateDeal mktEnvFix dealFixB =
      .error ⟨.ErrIllegalArgument, "Client collateral out of bounds."⟩ :=
  ⟨rfl, rfl, rfl, rfl, rfl⟩

/-- C2: the plaintext handed to the `verify_signature` syscall by
`update_channel_state` is `svBz sv = to_vec(&sv)`, and the (spec-modelled)
voucher serializer excludes the signature field, so those bytes coincide
with the encoding of the submitted voucher with its signature erased —
the canonical string the counterparty signed. -/
theorem update_channel_state_verifies_unsigned_voucher_bytes (sv : SignedVoucher) :
    svBz sv = encodeSignedVoucher { sv with signature := none } :=
  rfl

/-- C9: `on_miners_sector_terminate` hits the `assert_eq!` panic (market
mod.rs lines 509-512) — not a typed `ActorError` — as soon as a listed
deal's stored proposal names a provider other than the caller: caller 2
terminating deal 7 whose proposal's provider is 1 panics. -/
theorem on_miners_sector_terminate_panics_on_foreign_deal :
    onMinersSectorTerminate 2 ⟨10, [7]⟩ [(7, termProposalFix)] [] =
      .panicked "caller is not the provider of the deal" :=
  rfl

theorem exceptErrNeOk {E A : Type} (e : E) (a : A) :
    (Except.error e : Except E A) ≠ Except.ok a :=
  fun hh => Except.noConfusion hh

theorem ucsSettleAdjust_toSend (sv : SignedVoucher) (s : PaychState) :
    (ucsSettleAdjust sv s).toSend = s.toSend := by
  simp only [ucsSettleAdjust]
  split
  · split <;> split <;> rfl
  · rfl

theorem ucsTransaction_ok_toSend (sv : SignedVoucher) (currBal : TokenAmount)
    (st st1 : PaychState) (h : ucsTransaction sv currBal st = .ok st1) :
    0 ≤ st1.toSend ∧ st1.toSend ≤ currBal := by
  simp only [ucsTransaction] at h
  repeat' split at h
  all_goals
    first
    | exact absurd h (exceptErrNeOk _ _)
    | (injection h with h1; subst h1; rw [ucsSettleAdjust_toSend]; dsimp only;
       refine ⟨not_lt.mp ?_, not_lt.mp ?_⟩ <;> assumption)

/-- C3 (counterexample): `to_send` is not monotonically non-decreasing
over successful `UpdateChannelState` calls.  On a channel whose lane 1 has
already redeemed 5 (`to_send = 5`), a voucher for lane 1 with a newer
nonce but amount 3 succeeds — the source only rejects a negative or
over-balance result, not a decrease — leaving `to_send = 3 < 5`. -/
theorem update_channel_state_to_send_decreases :
    (updateChannelState paychEnvFix paychStFix 1 ucsParamsFix).map PaychState.toSend =
      .ok 3 ∧
    paychStFix.toSend = 5 ∧ ¬ ((5 : Int) ≤ 3) :=
  ⟨rfl, rfl, by decide⟩

/-- C3 (amended): every successful `UpdateChannelState` call leaves
`to_send` between 0 and the channel balance read at the start of the call;
it is not monotone — a voucher whose amount is below the amounts already
redeemed decreases it (see the counterexample). -/
theorem update_channel_state_to_send_bounds (env : PaychEnv) (st : PaychState)
    (caller : Nat) (params : UcsParams) (st1 : PaychState)
    (h : updateChannelState env st caller params = .ok st1) :
    0 ≤ st1.toSend ∧ st1.toSend ≤ env.currBalance := by
  simp only [updateChannelState] at h
  repeat' split at h
  all_goals first
    | exact absurd h (exceptErrNeOk _ _)
    | exact ucsTransaction_ok_toSend _ _ _ _ h

/-- C3 (witness for the amended theorem): the counterexample run itself
satisfies the amended bounds, with `to_send = 3` inside `[0, 10]`. -/
theorem update_channel_state_to_send_bounds_witness :
    updateChannelState paychEnvFix paychStFix 1 ucsParamsFix =
      .ok ({ paychStFix with toSend := 3, laneStates := [⟨1, 3, 2⟩] }) ∧
    0 ≤ (3 : Int) ∧ (3 : Int) ≤ paychEnvFix.currBalance :=
  ⟨rfl,
   update_channel_state_to_send_bounds paychEnvFix paychStFix 1 ucsParamsFix
     { paychStFix with toSend := 3, laneStates := [⟨1, 3, 2⟩] } rfl⟩

/-- C8: `Collect` fails with `ErrForbidden` — before any send or state
mutation — exactly when `settling_at = 0` or the epoch is still below
`settling_at`; otherwise it sends `current_balance - to_send` to `from`
and `to_send` to `to` and zeroes `to_send`.  (The `checked_sub` guard of
the source can never fire, `BigInt` subtraction being total, so the
"otherwise" branch is unconditional.) -/
theorem collect_spec (env : PaychEnv) (st : PaychState) (caller : Nat)
    (hc : caller = st.fromAddr ∨ caller = st.toAddr) :
    ((st.settlingAt = 0 ∨ env.currEpoch < st.settlingAt) →
      collect env st caller =
        .error ⟨.ErrForbidden, "payment channel not settling or settled"⟩) ∧
    (¬ (st.settlingAt = 0 ∨ env.currEpoch < st.settlingAt) →
      collect env st caller =
        .ok ({ st with toSend := 0 },
          [(st.fromAddr, env.currBalance - st.toSend), (st.toAddr, st.toSend)])) := by
  have hcall : ¬ (caller ≠ st.fromAddr ∧ caller ≠ st.toAddr) := by
    rcases hc with h | h <;> simp [h]
  constructor
  · intro hs
    simp only [collect, if_neg hcall, if_pos hs]
  · intro hs
    simp only [collect, if_neg hcall, if_neg hs, checkedSub]

/-- C8 (witness): party 1 collecting at epoch 5 from a channel settled at
epoch 1 with balance 10 and `to_send = 4` sends 6 to `from` and 4 to `to`
and zeroes `to_send`. -/
theorem collect_spec_witness :
    (1 = collectStFix.fromAddr ∨ 1 = collectStFix.toAddr) ∧
    ¬ (collectStFix.settlingAt = 0 ∨ collectEnvFix.currEpoch < collectStFix.settlingAt) ∧
    collect collectEnvFix collectStFix 1 =
      .ok ({ collectStFix with toSend := 0 },
        [(collectStFix.fromAddr, collectEnvFix.currBalance - collectStFix.toSend),
         (collectStFix.toAddr, collectStFix.toSend)]) :=
  ⟨Or.inl rfl, by decide,
   (collect_spec collectEnvFix collectStFix 1 (Or.inl rfl)).2 (by decide)⟩

theorem pushVals_eq {K V : Type} (kvs : List (K × V)) (acc : List (K × V))
    (h : acc.length ≤ 3) :
    pushVals kvs acc = if acc.length + kvs.length ≤ 3 then some (acc ++ kvs) else none := by
  induction kvs generalizing acc with
  | nil => simp [pushVals, h]
  | cons kv rest ih =>
    simp only [pushVals, MAX_ARRAY_WIDTH]
    by_cases hfull : acc.length = 3
    · rw [if_pos hfull, if_neg (by simp [List.length_cons]; omega)]
    · rw [if_neg hfull, ih (acc ++ [kv]) (by simp [List.length_append]; omega)]
      simp only [List.length_append, List.length_cons]
      by_cases hle : acc.length + (rest.length + 1) ≤ 3
      · rw [if_pos (by simp; omega), if_pos (by omega)]
        simp
      · rw [if_neg (by simp; omega), if_neg (by omega)]

theorem totalVals_cons_values {K V : Type} (kvs : List (K × V)) (rest : List (HPointer K V)) :
    totalVals (HPointer.values kvs :: rest) = kvs.length + totalVals rest := by
  simp [totalVals, flattenVals, pointerVals]

theorem flattenVals_cons_values {K V : Type} (kvs : List (K × V))
    (rest : List (HPointer K V)) :
    flattenVals (HPointer.values kvs :: rest) = kvs ++ flattenVals rest := by
  simp [flattenVals, pointerVals]

theorem collectVals_eq {K V : Type} (l : List (HPointer K V)) (acc : List (K × V))
    (h : acc.length ≤ 3) :
    collectVals l acc =
      if (∀ p ∈ l, p.isBucket = true) ∧ acc.length + totalVals l ≤ 3 then
        some (acc ++ flattenVals l)
      else none := by
  induction l generalizing acc with
  | nil => simp [collectVals, totalVals, flattenVals, h]
  | cons p rest ih =>
    match p with
    | .values kvs =>
      simp only [collectVals]
      rw [pushVals_eq kvs acc h, totalVals_cons_values, flattenVals_cons_values]
      by_cases hle : acc.length + kvs.length ≤ 3
      · rw [if_pos hle]
        dsimp only
        rw [ih (acc ++ kvs) (by simp [List.length_append]; omega)]
        by_cases hall : ∀ p ∈ rest, p.isBucket = true
        · by_cases htot : acc.length + kvs.length + totalVals rest ≤ 3
          · have hallc : ∀ p ∈ HPointer.values kvs :: rest, p.isBucket = true := by
              intro p hp
              rcases List.mem_cons.mp hp with rfl | hp2
              · rfl
              · exact hall p hp2
            rw [if_pos ⟨hall, by simp only [List.length_append]; omega⟩,
              if_pos ⟨hallc, by omega⟩, List.append_assoc]
          · rw [if_neg (by rintro ⟨-, h2⟩; simp only [List.length_append] at h2; omega),
              if_neg (by rintro ⟨-, h2⟩; omega)]
        · have hnc : ¬ ∀ p ∈ HPointer.values kvs :: rest, p.isBucket = true :=
            fun h1 => hall fun p hp => h1 p (List.mem_cons_of_mem _ hp)
          rw [if_neg (fun hc => hall hc.1), if_neg (fun hc => hnc hc.1)]
      · rw [if_neg hle]
        dsimp only
        rw [if_neg (by rintro ⟨-, h2⟩; omega)]
    | .link c =>
      simp [collectVals, HPointer.isBucket]
    | .cache nd =>
      simp [collectVals, HPointer.isBucket]

/-- C7: for a cached child with between 2 and `MAX_ARRAY_WIDTH` pointers,
`clean` flattens it into one bucket holding all its key-value pairs
exactly when all its pointers are buckets holding at most
`MAX_ARRAY_WIDTH` values in total; otherwise (a link or cached pointer
among them, or the count exceeding `MAX_ARRAY_WIDTH` mid-scan) the
pointer is returned unchanged with `Ok`; and a cached child with zero
pointers is the `ZeroPointers` error. -/
theorem hamt_pointer_clean_spec (K V : Type) (n m : HNode K V)
    (hm : m.pointers = [])
    (h2 : 2 ≤ n.pointers.length) (h3 : n.pointers.length ≤ MAX_ARRAY_WIDTH) :
    HPointer.clean (.cache m) = .error .zeroPointers ∧
    (HPointer.clean (.cache n) = .ok (.values (flattenVals n.pointers)) ↔
      (∀ p ∈ n.pointers, p.isBucket = true) ∧ totalVals n.pointers ≤ MAX_ARRAY_WIDTH) ∧
    (¬ ((∀ p ∈ n.pointers, p.isBucket = true) ∧ totalVals n.pointers ≤ MAX_ARRAY_WIDTH) →
      HPointer.clean (.cache n) = .ok (.cache n)) := by
  obtain ⟨mb, mps⟩ := m
  simp only [HNode.pointers] at hm
  subst hm
  refine ⟨rfl, ?_⟩
  obtain ⟨nb, ps⟩ := n
  simp only [HNode.pointers] at h2 h3 ⊢
  match ps, h2 with
  | a :: b :: t, _ =>
    have hcl : HPointer.clean (.cache (.mk nb (a :: b :: t))) =
        if (a :: b :: t).length ≤ MAX_ARRAY_WIDTH then
          (match collectVals (a :: b :: t) [] with
           | some cv => .ok (.values cv)
           | none => .ok (.cache (.mk nb (a :: b :: t))))
        else .ok (.cache (.mk nb (a :: b :: t))) := rfl
    rw [hcl, if_pos h3, collectVals_eq _ [] (by simp)]
    simp only [List.length_nil, Nat.zero_add, List.nil_append]
    by_cases hc : (∀ p ∈ a :: b :: t, p.isBucket = true) ∧ totalVals (a :: b :: t) ≤ 3
    · rw [if_pos hc]
      dsimp only
      constructor
      · constructor
        · intro _
          exact ⟨hc.1, by have := hc.2; simpa [MAX_ARRAY_WIDTH] using this⟩
        · intro _
          rfl
      · intro hnc
        exact absurd ⟨hc.1, by have := hc.2; simpa [MAX_ARRAY_WIDTH] using this⟩ hnc
    · rw [if_neg hc]
      dsimp only
      constructor
      · constructor
        · intro heq
          injection heq with h4
          exact HPointer.noConfusion h4
        · intro hcc
          exact absurd ⟨hcc.1, by simpa [MAX_ARRAY_WIDTH] using hcc.2⟩ hc
      · intro _
        rfl

/-- C7 (witness): an empty cached child errors; a cached child holding
two singleton buckets flattens into the bucket `[(1, 10), (2, 20)]`. -/
theorem hamt_pointer_clean_spec_witness :
    HPointer.clean (.cache (.mk 0 ([] : List (HPointer Nat Nat)))) = .error .zeroPointers ∧
    HPointer.clean (.cache (.mk 0 [HPointer.values [(1, 10)], HPointer.values [(2, 20)]])) =
      .ok (.values [(1, 10), (2, 20)]) := by
  have h := hamt_pointer_clean_spec Nat Nat
    (.mk 0 [HPointer.values [(1, 10)], HPointer.values [(2, 20)]]) (.mk 0 []) rfl
    (by decide) (by decide)
  exact ⟨h.1, h.2.1.mpr ⟨by decide, by decide⟩⟩

theorem parsePD_characterization (m : List (String × PEntryVal)) :
    ∀ acc : PointerDeser,
      (∀ p ∈ m, p.1 = "0" → isCidV p.2 = true) →
      (∀ p ∈ m, p.1 = "1" → isValsV p.2 = true) →
      keyCount m "0" ≤ 1 → keyCount m "1" ≤ 1 →
      (acc.cid.isSome = true → keyCount m "0" = 0) →
      (acc.vals.isSome = true → keyCount m "1" = 0) →
      parsePointerDeser m acc =
        .ok ⟨(match acc.vals with | some v => some v | none => vals1 m),
             (match acc.cid with | some c => some c | none => cid0 m)⟩ := by
  induction m with
  | nil =>
    intro acc _ _ _ _ _ _
    obtain ⟨v, c⟩ := acc
    cases v <;> cases c <;> rfl
  | cons p rest ih =>
    intro acc h0 h1 c0 c1 hc hv
    obtain ⟨k, v⟩ := p
    by_cases hk1 : k = "1"
    · subst hk1
      have hcnt1 : keyCount (("1", v) :: rest) "1" = keyCount rest "1" + 1 := by
        simp [keyCount]
      have hcnt0 : keyCount (("1", v) :: rest) "0" = keyCount rest "0" := by
        simp [keyCount]
      have hv1 : isValsV v = true := h1 ("1", v) (List.mem_cons_self _ _) rfl
      have haccv : acc.vals = none := by
        cases hav : acc.vals with
        | none => rfl
        | some w => exact absurd (hv (by simp [hav])) (by omega)
      obtain ⟨kvs, rfl⟩ : ∃ kvs, v = .valsV kvs := by
        cases v with
        | valsV kvs => exact ⟨kvs, rfl⟩
        | cidV c => simp [isValsV] at hv1
        | otherV => simp [isValsV] at hv1
      have hstep : parsePointerDeser (("1", PEntryVal.valsV kvs) :: rest) acc =
          (match acc.vals with
           | some _ => .error "duplicate field 1"
           | none => parsePointerDeser rest { acc with vals := some kvs }) := rfl
      rw [hstep, haccv]
      dsimp only
      rw [ih { acc with vals := some kvs }
        (fun p hp hp0 => h0 p (List.mem_cons_of_mem _ hp) hp0)
        (fun p hp hp1 => h1 p (List.mem_cons_of_mem _ hp) hp1)
        (by omega) (by omega)
        (fun hs => by have := hc (by simpa using hs); omega)
        (fun _ => by omega)]
      have hval1 : vals1 (("1", PEntryVal.valsV kvs) :: rest) = some kvs := by
        simp [vals1, lookupKey]
      have hcid0 : cid0 (("1", PEntryVal.valsV kvs) :: rest) = cid0 rest := by
        simp [cid0, lookupKey]
      rw [hval1, hcid0]
    · by_cases hk0 : k = "0"
      · subst hk0
        have hcnt0 : keyCount (("0", v) :: rest) "0" = keyCount rest "0" + 1 := by
          simp [keyCount]
        have hcnt1 : keyCount (("0", v) :: rest) "1" = keyCount rest "1" := by
          simp [keyCount]
        have hv0 : isCidV v = true := h0 ("0", v) (List.mem_cons_self _ _) rfl
        have haccc : acc.cid = none := by
          cases hac : acc.cid with
          | none => rfl
          | some w => exact absurd (hc (by simp [hac])) (by omega)
        obtain ⟨c, rfl⟩ : ∃ c, v = .cidV c := by
          cases v with
          | cidV c => exact ⟨c, rfl⟩
          | valsV kvs => simp [isCidV] at hv0
          | otherV => simp [isCidV] at hv0
        have hstep : parsePointerDeser (("0", PEntryVal.cidV c) :: rest) acc =
            (match acc.cid with
             | some _ => .error "duplicate field 0"
             | none => parsePointerDeser rest { acc with cid := some c }) := rfl
        rw [hstep, haccc]
        dsimp only
        rw [ih { acc with cid := some c }
          (fun p hp hp0 => h0 p (List.mem_cons_of_mem _ hp) hp0)
          (fun p hp hp1 => h1 p (List.mem_cons_of_mem _ hp) hp1)
          (by omega) (by omega)
          (fun _ => by omega)
          (fun hs => by have := hv (by simpa using hs); omega)]
        have hval1 : vals1 (("0", PEntryVal.cidV c) :: rest) = vals1 rest := by
          simp [vals1, lookupKey]
        have hcid0 : cid0 (("0", PEntryVal.cidV c) :: rest) = some c := by
          simp [cid0, lookupKey]
        rw [hval1, hcid0]
      · have hcnt0 : keyCount ((k, v) :: rest) "0" = keyCount rest "0" := by
          simp [keyCount, hk0]
        have hcnt1 : keyCount ((k, v) :: rest) "1" = keyCount rest "1" := by
          simp [keyCount, hk1]
        simp only [parsePointerDeser, if_neg hk1, if_neg hk0]
        rw [ih acc
          (fun p hp hp0 => h0 p (List.mem_cons_of_mem _ hp) hp0)
          (fun p hp hp1 => h1 p (List.mem_cons_of_mem _ hp) hp1)
          (by omega) (by omega)
          (fun hs => by have := hc hs; omega)
          (fun hs => by have := hv hs; omega)]
        have hval1 : vals1 ((k, v) :: rest) = vals1 rest := by
          simp [vals1, lookupKey, hk1]
        have hcid0 : cid0 ((k, v) :: rest) = cid0 rest := by
          simp [cid0, lookupKey, hk0]
        rw [hval1, hcid0]

/-- C4 (counterexample): a CBOR map holding both the `"0"` link key and
the `"1"` bucket key is not rejected by `Pointer::deserialize` — the
first match arm wins and the map decodes as the bucket, silently ignoring
the link. -/
theorem pointer_deserialize_both_keys_accepted :
    deserializePointer [("0", .cidV 7), ("1", .valsV [(1, 2)])] =
      .ok (.values [(1, 2)]) :=
  rfl

/-- C4 (amended): for every well-formed pointer map, deserialization
returns the bucket of the `"1"` entry whenever that key is present —
*including* when `"0"` is also present — returns the link of the `"0"`
entry when only that key is present, and errors only when neither key is
present. -/
theorem pointer_deserialize_characterization (m : List (String × PEntryVal))
    (hwf : pdWF m) :
    deserializePointer m =
      (match vals1 m, cid0 m with
       | some kvs, _ => .ok (.values kvs)
       | none, some c => .ok (.link c)
       | none, none => .error "Unexpected pointer serialization") := by
  obtain ⟨h0, h1, hc0, hc1⟩ := hwf
  unfold deserializePointer
  rw [parsePD_characterization m ⟨none, none⟩ h0 h1 hc0 hc1 (by simp) (by simp)]

/-- C4 (witness for the amended theorem): a map holding only the link key
decodes to that link. -/
theorem pointer_deserialize_characterization_witness :
    pdWF [("0", .cidV 5)] ∧
    deserializePointer [("0", .cidV 5)] = .ok (.link 5) :=
  ⟨by decide, pointer_deserialize_characterization [("0", .cidV 5)] (by decide)⟩

theorem head?_sort_eq_min' (s : Finset ℕ) :
    (s.sort (· ≤ ·)).head? = if h : s.Nonempty then some (s.min' h) else none := by
  by_cases h : s.Nonempty
  · rw [dif_pos h]
    match hlst : s.sort (· ≤ ·) with
    | [] =>
      exfalso
      have := Finset.length_sort (α := ℕ) (· ≤ ·) (s := s)
      rw [hlst] at this
      simp only [List.length_nil] at this
      exact absurd (Finset.card_pos.mpr h) (by omega)
    | a :: t =>
      have ha : a ∈ s := by
        rw [← Finset.mem_sort (α := ℕ) (· ≤ ·), hlst]
        exact List.mem_cons_self _ _
      have hsorted := Finset.sort_sorted (α := ℕ) (· ≤ ·) s
      rw [hlst] at hsorted
      have hle : ∀ y ∈ s, a ≤ y := by
        intro y hy
        rw [← Finset.mem_sort (α := ℕ) (· ≤ ·), hlst] at hy
        rcases List.mem_cons.mp hy with rfl | hyt
        · exact le_refl _
        · exact (List.sorted_cons.mp hsorted).1 y hyt
      have : s.min' h = a := le_antisymm (Finset.min'_le s a ha) (Finset.le_min' s h a hle)
      rw [this]
      rfl
  · rw [dif_neg h]
    rw [Finset.not_nonempty_iff_eq_empty.mp h]
    simp [Finset.sort_empty]

/-- C10: with the struct's documented invariant that the pending `set`
and `unset` buffers never overlap, the optimized `BitField::first` —
which merges the stored ranges with only the minimum pending set bit —
returns exactly the first element of the full iteration
`BitField::iter`. -/
theorem bitfield_first_eq_iter_head (b : BitField) (hdisj : Disjoint b.set b.unset) :
    b.first = b.iter.head? := by
  unfold BitField.first BitField.iter
  rw [head?_sort_eq_min', head?_sort_eq_min']
  have hsub : (innerBits b ∪ minSetRange b).filter (fun i => i ∉ b.unset) ⊆
      (innerBits b ∪ b.set).filter (fun i => i ∉ b.unset) := by
    intro x hx
    rw [Finset.mem_filter] at hx ⊢
    refine ⟨?_, hx.2⟩
    rcases Finset.mem_union.mp hx.1 with hxr | hxm
    · exact Finset.mem_union_left _ hxr
    · unfold minSetRange at hxm
      by_cases hS : b.set.Nonempty
      · rw [dif_pos hS, Finset.mem_singleton] at hxm
        subst hxm
        exact Finset.mem_union_right _ (b.set.min'_mem hS)
      · rw [dif_neg hS] at hxm
        exact absurd hxm (Finset.not_mem_empty x)
  by_cases hB : ((innerBits b ∪ b.set).filter (fun i => i ∉ b.unset)).Nonempty
  · have hy := Finset.min'_mem _ hB
    rw [Finset.mem_filter] at hy
    have key : ∃ hA : ((innerBits b ∪ minSetRange b).filter
        (fun i => i ∉ b.unset)).Nonempty,
        ((innerBits b ∪ minSetRange b).filter (fun i => i ∉ b.unset)).min' hA =
          ((innerBits b ∪ b.set).filter (fun i => i ∉ b.unset)).min' hB := by
      rcases Finset.mem_union.mp hy.1 with hyr | hyS
      · have hyA : ((innerBits b ∪ b.set).filter (fun i => i ∉ b.unset)).min' hB ∈
            (innerBits b ∪ minSetRange b).filter (fun i => i ∉ b.unset) :=
          Finset.mem_filter.mpr ⟨Finset.mem_union_left _ hyr, hy.2⟩
        refine ⟨⟨_, hyA⟩, le_antisymm ?_ ?_⟩
        · exact Finset.min'_le _ _ hyA
        · exact Finset.min'_le _ _ (hsub (Finset.min'_mem _ _))
      · have hS : b.set.Nonempty := ⟨_, hyS⟩
        have hmA : b.set.min' hS ∈
            (innerBits b ∪ minSetRange b).filter (fun i => i ∉ b.unset) := by
          refine Finset.mem_filter.mpr ⟨Finset.mem_union_right _ ?_, ?_⟩
          · unfold minSetRange
            rw [dif_pos hS]
            exact Finset.mem_singleton_self _
          · exact Finset.disjoint_left.mp hdisj (b.set.min'_mem hS)
        refine ⟨⟨_, hmA⟩, le_antisymm ?_ ?_⟩
        · exact le_trans (Finset.min'_le _ _ hmA) (b.set.min'_le _ hyS)
        · exact Finset.min'_le _ _ (hsub (Finset.min'_mem _ _))
    obtain ⟨hA, hmin⟩ := key
    rw [dif_pos hA, dif_pos hB, hmin]
  · have hA : ¬ ((innerBits b ∪ minSetRange b).filter
        (fun i => i ∉ b.unset)).Nonempty :=
      fun hA => hB (hA.mono hsub)
    rw [dif_neg hA, dif_neg hB]

/-- C10 (witness): on the fixture — range `[3, 5)`, pending set `{1}`,
pending unset `{4}` — both computations yield first element 1. -/
theorem bitfield_first_eq_iter_head_witness :
    Disjoint bfFix.set bfFix.unset ∧
    bfFix.first = bfFix.iter.head? :=
  ⟨by decide, bitfield_first_eq_iter_head bfFix (by decide)⟩

/-! ### LEB128 codec lemmas -/

theorem readLeb_toLebAux (fuel : Nat) :
    ∀ id rest shift acc, id < fuel → 7 ∣ shift → shift ≤ 63 → id < 2 ^ (64 - shift) →
      readLebU64 (toLebBytesAux fuel id ++ rest) shift acc = .ok (acc + id * 2 ^ shift) := by
  induction fuel with
  | zero => intro id rest shift acc hfuel _ _ _; omega
  | succ fuel ih =>
    intro id rest shift acc hfuel hdvd hle hbound
    simp only [toLebBytesAux]
    by_cases hsmall : id < 128
    · rw [if_pos hsmall]
      simp only [List.cons_append, List.nil_append, readLebU64]
      have hguard : ¬ (shift = 63 ∧ id ≠ 0 ∧ id ≠ 1) := by
        rintro ⟨rfl, h0, h1⟩
        norm_num at hbound
        omega
      rw [if_neg hguard, Nat.mod_eq_of_lt hsmall, if_pos hsmall]
    · rw [if_neg hsmall]
      simp only [List.cons_append, readLebU64]
      have hs63 : shift ≠ 63 := by
        rintro rfl
        norm_num at hbound
        omega
      have hguard : ¬ (shift = 63 ∧ id % 128 + 128 ≠ 0 ∧ id % 128 + 128 ≠ 1) := by
        rintro ⟨rfl, -, -⟩
        exact hs63 rfl
      have hnosmall : ¬ (id % 128 + 128 < 128) := by omega
      rw [if_neg hguard, if_neg hnosmall]
      have hsle : shift ≤ 56 := by
        rcases hdvd with ⟨k, rfl⟩
        omega
      have hrec := ih (id / 128) rest (shift + 7) (acc + (id % 128 + 128) % 128 * 2 ^ shift)
        (by omega) (by rcases hdvd with ⟨k, rfl⟩; exact ⟨k + 1, by ring⟩) (by omega)
        (by
          have h1 : id < 2 ^ (64 - shift) := hbound
          have h2 : (64 : Nat) - shift = (64 - (shift + 7)) + 7 := by omega
          rw [h2, pow_add] at h1
          have h128 : (2 : Nat) ^ 7 = 128 := by norm_num
          rw [h128] at h1
          exact Nat.div_lt_iff_lt_mul (by norm_num) |>.mpr h1)
      simp only [List.append_eq] at hrec ⊢
      rw [hrec]
      congr 1
      have hmod : (id % 128 + 128) % 128 = id % 128 := by omega
      rw [hmod]
      have hsplit : id % 128 + 128 * (id / 128) = id := Nat.mod_add_div id 128
      have hpow : (2 : Nat) ^ (shift + 7) = 2 ^ shift * 128 := by
        rw [pow_add]
        norm_num
      rw [hpow]
      calc acc + id % 128 * 2 ^ shift + id / 128 * (2 ^ shift * 128)
          = acc + (id % 128 + 128 * (id / 128)) * 2 ^ shift := by ring
        _ = acc + id * 2 ^ shift := by rw [hsplit]

theorem fromLeb_toLeb (id : Nat) (h : id < 2 ^ 64) :
    fromLebBytes (toLebBytes id) = .ok id := by
  have := readLeb_toLebAux (id + 1) id [] 0 0 (by omega) ⟨0, rfl⟩ (by omega)
    (by simpa using h)
  simpa [fromLebBytes, toLebBytes] using this

theorem toLebBytesAux_ne_nil (fuel id : Nat) (h : id < fuel) :
    toLebBytesAux fuel id ≠ [] := by
  cases fuel with
  | zero => omega
  | succ fuel =>
    simp only [toLebBytesAux]
    split <;> simp

/-! ### Decimal codec lemmas -/

theorem parseDigits_append (xs ys : List Nat) (acc : Nat) :
    parseDigits (xs ++ ys) acc =
      match parseDigits xs acc with
      | .ok a => parseDigits ys a
      | .error e => .error e := by
  induction xs generalizing acc with
  | nil => rfl
  | cons c rest ih =>
    simp only [List.cons_append, parseDigits]
    by_cases hd : 48 ≤ c ∧ c ≤ 57
    · simp only [if_pos hd]
      by_cases hov : acc * 10 + (c - 48) < 2 ^ 64
      · simp only [if_pos hov]
        exact ih _
      · simp only [if_neg hov]
    · simp only [if_neg hd]

theorem toDecimalAux_digits (fuel : Nat) :
    ∀ id, id < fuel → ∀ c ∈ toDecimalAux fuel id, 48 ≤ c ∧ c ≤ 57 := by
  induction fuel with
  | zero => intro id h; omega
  | succ fuel ih =>
    intro id hlt c hc
    simp only [toDecimalAux] at hc
    by_cases hsmall : id < 10
    · rw [if_pos hsmall] at hc
      simp only [List.mem_singleton] at hc
      omega
    · rw [if_neg hsmall] at hc
      rcases List.mem_append.mp hc with hc1 | hc2
      · exact ih (id / 10) (by omega) c hc1
      · simp only [List.mem_singleton] at hc2
        have : id % 10 < 10 := Nat.mod_lt _ (by norm_num)
        omega

theorem parseDigits_toDecimalAux (fuel : Nat) :
    ∀ id acc, id < fuel → acc * 10 ^ (toDecimalAux fuel id).length + id < 2 ^ 64 →
      parseDigits (toDecimalAux fuel id) acc =
        .ok (acc * 10 ^ (toDecimalAux fuel id).length + id) := by
  induction fuel with
  | zero => intro id acc h; omega
  | succ fuel ih =>
    intro id acc hlt hbound
    simp only [toDecimalAux] at hbound ⊢
    by_cases hsmall : id < 10
    · rw [if_pos hsmall] at hbound ⊢
      simp only [List.length_singleton, pow_one] at hbound ⊢
      simp only [parseDigits]
      have hd : 48 ≤ 48 + id ∧ 48 + id ≤ 57 := by omega
      have hov : acc * 10 + (48 + id - 48) < 2 ^ 64 := by omega
      simp only [if_pos hd, if_pos hov, parseDigits]
      congr 1
      omega
    · rw [if_neg hsmall] at hbound ⊢
      rw [parseDigits_append]
      have hlen : (toDecimalAux fuel (id / 10) ++ [48 + id % 10]).length =
          (toDecimalAux fuel (id / 10)).length + 1 := by
        simp
      rw [hlen] at hbound ⊢
      have hmod : id % 10 < 10 := Nat.mod_lt _ (by norm_num)
      have hsplit : id / 10 * 10 + id % 10 = id := by omega
      have hexp : acc * 10 ^ ((toDecimalAux fuel (id / 10)).length + 1) =
          acc * 10 ^ (toDecimalAux fuel (id / 10)).length * 10 := by
        ring
      have hb2 : acc * 10 ^ (toDecimalAux fuel (id / 10)).length + id / 10 < 2 ^ 64 := by
        rw [hexp] at hbound
        omega
      rw [ih (id / 10) acc (by omega) hb2]
      dsimp only
      simp only [parseDigits]
      have hd2 : 48 ≤ 48 + id % 10 ∧ 48 + id % 10 ≤ 57 := by omega
      have hov2 : (acc * 10 ^ (toDecimalAux fuel (id / 10)).length + id / 10) * 10 +
          (48 + id % 10 - 48) < 2 ^ 64 := by
        rw [hexp] at hbound
        omega
      simp only [if_pos hd2, if_pos hov2, parseDigits]
      congr 1
      rw [hexp]
      omega

theorem toDecimalAux_length_le (fuel : Nat) :
    ∀ id k, id < fuel → id < 10 ^ k → 1 ≤ k → (toDecimalAux fuel id).length ≤ k := by
  induction fuel with
  | zero => intro id k h; omega
  | succ fuel ih =>
    intro id k hlt hbound hk
    simp only [toDecimalAux]
    by_cases hsmall : id < 10
    · rw [if_pos hsmall]
      simpa using hk
    · rw [if_neg hsmall]
      have hk2 : 2 ≤ k := by
        by_contra hcon
        have : k = 1 := by omega
        subst this
        simp only [pow_one] at hbound
        omega
      have hdiv : id / 10 < 10 ^ (k - 1) := by
        have : 10 ^ k = 10 ^ (k - 1) * 10 := by
          rw [← pow_succ]
          congr 1
          omega
        rw [this] at hbound
        exact Nat.div_lt_iff_lt_mul (by norm_num) |>.mpr hbound
      have := ih (id / 10) (k - 1) (by omega) hdiv (by omega)
      simp only [List.length_append, List.length_singleton]
      omega

theorem toDecimalAux_ne_nil (fuel id : Nat) (h : id < fuel) :
    toDecimalAux fuel id ≠ [] := by
  cases fuel with
  | zero => omega
  | succ fuel =>
    simp only [toDecimalAux]
    split
    · simp
    · simp

theorem parseU64_toDecimal (n : Nat) (h : n < 2 ^ 64) :
    parseU64 (toDecimal n) = .ok n := by
  unfold toDecimal
  match hd : toDecimalAux (n + 1) n with
  | [] => exact absurd hd (toDecimalAux_ne_nil _ _ (by omega))
  | c :: cs =>
    have hc : 48 ≤ c ∧ c ≤ 57 :=
      toDecimalAux_digits (n + 1) n (by omega) c (by rw [hd]; exact List.mem_cons_self _ _)
    have hparse := parseDigits_toDecimalAux (n + 1) n 0 (by omega)
      (by simpa using h)
    rw [hd] at hparse
    simp only [Nat.zero_mul, Nat.zero_add] at hparse
    have hne43 : c ≠ 43 := by omega
    simp only [parseU64]
    rw [if_neg hne43]
    rw [if_neg (by simp)]
    exact hparse

/-! ### Base32 codec lemmas -/

theorem byteBits_valOfBits_8 :
    ∀ a b c d e f g h : Bool,
      byteBits (valOfBits [a, b, c, d, e, f, g, h]) = [a, b, c, d, e, f, g, h] := by
  decide

theorem bits5_valOfBits_5 :
    ∀ a b c d e : Bool, bits5 (valOfBits [a, b, c, d, e]) = [a, b, c, d, e] := by
  decide

theorem valOfBits_bits5 : ∀ v < 32, valOfBits (bits5 v) = v := by
  decide

set_option maxRecDepth 4000 in
theorem valOfBits_byteBits : ∀ b < 256, valOfBits (byteBits b) = b := by
  decide

theorem valOfBits_lt_32 : ∀ a b c d e : Bool, valOfBits [a, b, c, d, e] < 32 := by
  decide

theorem b32Val_b32Char : ∀ v < 32, b32Val (b32Char v) = some v := by
  decide

theorem b32Char_b32Val (c v : Nat) (h : b32Val c = some v) : b32Char v = c := by
  simp only [b32Val] at h
  by_cases h1 : 97 ≤ c ∧ c ≤ 122
  · rw [if_pos h1] at h
    injection h with hv
    subst hv
    simp only [b32Char]
    have hlt : c - 97 < 26 := by omega
    rw [if_pos hlt]
    omega
  · rw [if_neg h1] at h
    by_cases h2 : 50 ≤ c ∧ c ≤ 55
    · rw [if_pos h2] at h
      injection h with hv
      subst hv
      simp only [b32Char]
      have hge : ¬ (c - 50 + 26 < 26) := by omega
      rw [if_neg hge]
      omega
    · rw [if_neg h2] at h
      exact Option.noConfusion h

theorem b32Val_lt (c v : Nat) (h : b32Val c = some v) : v < 32 := by
  simp only [b32Val] at h
  by_cases h1 : 97 ≤ c ∧ c ≤ 122
  · rw [if_pos h1] at h
    injection h with hv
    omega
  · rw [if_neg h1] at h
    by_cases h2 : 50 ≤ c ∧ c ≤ 55
    · rw [if_pos h2] at h
      injection h with hv
      omega
    · rw [if_neg h2] at h
      exact Option.noConfusion h

theorem bitsOfBytes_length (bs : List Nat) : (bitsOfBytes bs).length = 8 * bs.length := by
  induction bs with
  | nil => rfl
  | cons b rest ih =>
    simp only [bitsOfBytes, List.map_cons, List.flatten_cons, List.length_append,
      List.length_cons] at ih ⊢
    simp only [byteBits, List.length_cons, List.length_nil]
    omega

theorem bytesOfBits_cons8 (b0 b1 b2 b3 b4 b5 b6 b7 : Bool) (rest : List Bool) :
    bytesOfBits (b0 :: b1 :: b2 :: b3 :: b4 :: b5 :: b6 :: b7 :: rest) =
      valOfBits [b0, b1, b2, b3, b4, b5, b6, b7] :: bytesOfBits rest :=
  rfl

theorem bytesOfBits_bitsOfBytes (bs : List Nat) (h : ∀ b ∈ bs, b < 256) :
    bytesOfBits (bitsOfBytes bs) = bs := by
  induction bs with
  | nil => rfl
  | cons b rest ih =>
    have hb : b < 256 := h b (List.mem_cons_self _ _)
    have hstep : bitsOfBytes (b :: rest) =
        b.testBit 7 :: b.testBit 6 :: b.testBit 5 :: b.testBit 4 ::
        b.testBit 3 :: b.testBit 2 :: b.testBit 1 :: b.testBit 0 :: bitsOfBytes rest := rfl
    rw [hstep, bytesOfBits_cons8]
    have hval : valOfBits [b.testBit 7, b.testBit 6, b.testBit 5, b.testBit 4,
        b.testBit 3, b.testBit 2, b.testBit 1, b.testBit 0] = b :=
      valOfBits_byteBits b hb
    rw [hval, ih (fun x hx => h x (List.mem_cons_of_mem _ hx))]

theorem bitsOfBytes_bytesOfBits :
    ∀ l : List Bool, l.length % 8 = 0 → bitsOfBytes (bytesOfBits l) = l
  | [], _ => rfl
  | [_], h => by simp at h
  | [_, _], h => by simp at h
  | [_, _, _], h => by simp at h
  | [_, _, _, _], h => by simp at h
  | [_, _, _, _, _], h => by simp at h
  | [_, _, _, _, _, _], h => by simp at h
  | [_, _, _, _, _, _, _], h => by simp at h
  | b0 :: b1 :: b2 :: b3 :: b4 :: b5 :: b6 :: b7 :: rest, h => by
    rw [bytesOfBits_cons8]
    have hrest : rest.length % 8 = 0 := by
      simp only [List.length_cons] at h
      omega
    have hstep : bitsOfBytes (valOfBits [b0, b1, b2, b3, b4, b5, b6, b7] :: bytesOfBits rest) =
        byteBits (valOfBits [b0, b1, b2, b3, b4, b5, b6, b7]) ++
          bitsOfBytes (bytesOfBits rest) := rfl
    rw [hstep, byteBits_valOfBits_8, bitsOfBytes_bytesOfBits rest hrest]
    rfl

theorem bytesOfBits_length :
    ∀ l : List Bool, (bytesOfBits l).length = l.length / 8
  | [] => rfl
  | [a] => by
    have h : bytesOfBits [a] = [] := rfl
    rw [h]
    simp
  | [a, b] => by
    have h : bytesOfBits [a, b] = [] := rfl
    rw [h]
    simp
  | [a, b, c] => by
    have h : bytesOfBits [a, b, c] = [] := rfl
    rw [h]
    simp
  | [a, b, c, d] => by
    have h : bytesOfBits [a, b, c, d] = [] := rfl
    rw [h]
    simp
  | [a, b, c, d, e] => by
    have h : bytesOfBits [a, b, c, d, e] = [] := rfl
    rw [h]
    simp
  | [a, b, c, d, e, f] => by
    have h : bytesOfBits [a, b, c, d, e, f] = [] := rfl
    rw [h]
    simp
  | [a, b, c, d, e, f, g] => by
    have h : bytesOfBits [a, b, c, d, e, f, g] = [] := rfl
    rw [h]
    simp
  | b0 :: b1 :: b2 :: b3 :: b4 :: b5 :: b6 :: b7 :: rest => by
    rw [bytesOfBits_cons8]
    simp only [List.length_cons, bytesOfBits_length rest]
    omega

theorem chunks5_map_bits5_flatten :
    ∀ bits : List Bool,
      ((chunks5 bits).map bits5).flatten =
        bits ++ List.replicate ((5 - bits.length % 5) % 5) false
  | [] => by simp [chunks5]
  | b0 :: b1 :: b2 :: b3 :: b4 :: rest => by
    simp only [chunks5, List.map_cons, List.flatten_cons]
    rw [bits5_valOfBits_5, chunks5_map_bits5_flatten rest]
    have hc : (5 - (b0 :: b1 :: b2 :: b3 :: b4 :: rest).length % 5) % 5 =
        (5 - rest.length % 5) % 5 := by
      simp only [List.length_cons]
      omega
    rw [hc]
    rfl
  | [a] => by
    have h1 : chunks5 [a] = [valOfBits [a, false, false, false, false]] := rfl
    rw [h1]
    simp only [List.map_cons, List.map_nil, List.flatten_cons, List.flatten_nil]
    rw [bits5_valOfBits_5]
    rfl
  | [a, b] => by
    have h1 : chunks5 [a, b] = [valOfBits [a, b, false, false, false]] := rfl
    rw [h1]
    simp only [List.map_cons, List.map_nil, List.flatten_cons, List.flatten_nil]
    rw [bits5_valOfBits_5]
    rfl
  | [a, b, c] => by
    have h1 : chunks5 [a, b, c] = [valOfBits [a, b, c, false, false]] := rfl
    rw [h1]
    simp only [List.map_cons, List.map_nil, List.flatten_cons, List.flatten_nil]
    rw [bits5_valOfBits_5]
    rfl
  | [a, b, c, d] => by
    have h1 : chunks5 [a, b, c, d] = [valOfBits [a, b, c, d, false]] := rfl
    rw [h1]
    simp only [List.map_cons, List.map_nil, List.flatten_cons, List.flatten_nil]
    rw [bits5_valOfBits_5]
    rfl

theorem chunks5_vals_lt :
    ∀ bits : List Bool, ∀ v ∈ chunks5 bits, v < 32
  | [] => by simp [chunks5]
  | b0 :: b1 :: b2 :: b3 :: b4 :: rest => by
    intro v hv
    simp only [chunks5, List.mem_cons] at hv
    rcases hv with rfl | hv
    · exact valOfBits_lt_32 _ _ _ _ _
    · exact chunks5_vals_lt rest v hv
  | [a] => by
    intro v hv
    have h1 : chunks5 [a] = [valOfBits [a, false, false, false, false]] := rfl
    rw [h1] at hv
    simp only [List.mem_singleton] at hv
    subst hv
    exact valOfBits_lt_32 _ _ _ _ _
  | [a, b] => by
    intro v hv
    have h1 : chunks5 [a, b] = [valOfBits [a, b, false, false, false]] := rfl
    rw [h1] at hv
    simp only [List.mem_singleton] at hv
    subst hv
    exact valOfBits_lt_32 _ _ _ _ _
  | [a, b, c] => by
    intro v hv
    have h1 : chunks5 [a, b, c] = [valOfBits [a, b, c, false, false]] := rfl
    rw [h1] at hv
    simp only [List.mem_singleton] at hv
    subst hv
    exact valOfBits_lt_32 _ _ _ _ _
  | [a, b, c, d] => by
    intro v hv
    have h1 : chunks5 [a, b, c, d] = [valOfBits [a, b, c, d, false]] := rfl
    rw [h1] at hv
    simp only [List.mem_singleton] at hv
    subst hv
    exact valOfBits_lt_32 _ _ _ _ _

theorem flatten_map_bits5_length (vs : List Nat) :
    ((vs.map bits5).flatten).length = 5 * vs.length := by
  induction vs with
  | nil => rfl
  | cons v rest ih =>
    simp only [List.map_cons, List.flatten_cons, List.length_append, ih, List.length_cons,
      bits5, List.length_nil]
    omega

theorem b32Vals_map_b32Char (vs : List Nat) (h : ∀ v ∈ vs, v < 32) :
    b32Vals (vs.map b32Char) = .ok vs := by
  induction vs with
  | nil => rfl
  | cons v rest ih =>
    simp only [List.map_cons, b32Vals]
    rw [b32Val_b32Char v (h v (List.mem_cons_self _ _)),
      ih (fun x hx => h x (List.mem_cons_of_mem _ hx))]

theorem b32Vals_ok_inv :
    ∀ (s vs : List Nat), b32Vals s = .ok vs →
      s = vs.map b32Char ∧ ∀ v ∈ vs, v < 32 := by
  intro s
  induction s with
  | nil =>
    intro vs h
    simp only [b32Vals] at h
    injection h with h1
    subst h1
    exact ⟨rfl, by simp⟩
  | cons c rest ih =>
    intro vs h
    simp only [b32Vals] at h
    match hv : b32Val c with
    | none => rw [hv] at h; exact Except.noConfusion h
    | some v =>
      rw [hv] at h
      match hr : b32Vals rest with
      | .error e => rw [hr] at h; exact Except.noConfusion h
      | .ok vs0 =>
        rw [hr] at h
        injection h with h1
        subst h1
        obtain ⟨hs, hb⟩ := ih vs0 hr
        constructor
        · simp only [List.map_cons, b32Char_b32Val c v hv, hs]
        · intro x hx
          rcases List.mem_cons.mp hx with rfl | hx2
          · exact b32Val_lt c x hv
          · exact hb x hx2

theorem base32Decode_encode (bs : List Nat) (h : ∀ b ∈ bs, b < 256) :
    base32Decode (base32Encode bs) = .ok bs := by
  unfold base32Encode base32Decode
  rw [b32Vals_map_b32Char _ (chunks5_vals_lt _)]
  dsimp only
  have hflat := chunks5_map_bits5_flatten (bitsOfBytes bs)
  have hlenflat := flatten_map_bits5_length (chunks5 (bitsOfBytes bs))
  have hlb : (bitsOfBytes bs).length = 8 * bs.length := bitsOfBytes_length bs
  have h5n : 5 * (chunks5 (bitsOfBytes bs)).length =
      8 * bs.length + (5 - (bitsOfBytes bs).length % 5) % 5 := by
    rw [hflat] at hlenflat
    simp only [List.length_append, List.length_replicate, hlb] at hlenflat
    omega
  have hnb : (List.map b32Char (chunks5 (bitsOfBytes bs))).length * 5 / 8 = bs.length := by
    rw [List.length_map]
    omega
  rw [hnb, hflat, ← hlb, List.drop_left, List.take_left]
  have hany : (List.replicate ((5 - (bitsOfBytes bs).length % 5) % 5) false).any
      (fun b => b) = false := by
    simp
  rw [hany]
  simp only [Bool.false_eq_true, if_false]
  rw [bytesOfBits_bitsOfBytes bs h]

theorem all_false_eq_replicate (l : List Bool) (h : l.any (fun b => b) = false) :
    l = List.replicate l.length false := by
  induction l with
  | nil => rfl
  | cons b rest ih =>
    simp only [List.any_cons, Bool.or_eq_false_iff] at h
    obtain ⟨hb, hrest⟩ := h
    simp only [List.length_cons, List.replicate_succ]
    rw [← ih hrest]
    cases b
    · rfl
    · exact absurd hb (by simp)

theorem flatten_map_bits5_inj :
    ∀ vs1 vs2 : List Nat, (∀ v ∈ vs1, v < 32) → (∀ v ∈ vs2, v < 32) →
      vs1.length = vs2.length →
      (vs1.map bits5).flatten = (vs2.map bits5).flatten → vs1 = vs2 := by
  intro vs1
  induction vs1 with
  | nil =>
    intro vs2 _ _ hlen _
    cases vs2 with
    | nil => rfl
    | cons v r => simp at hlen
  | cons v1 r1 ih =>
    intro vs2 h1 h2 hlen hflat
    cases vs2 with
    | nil => simp at hlen
    | cons v2 r2 =>
      simp only [List.map_cons, List.flatten_cons] at hflat
      have hl5 : (bits5 v1).length = (bits5 v2).length := rfl
      obtain ⟨hh, ht⟩ := List.append_inj hflat hl5
      have hv : v1 = v2 := by
        have e1 := valOfBits_bits5 v1 (h1 v1 (List.mem_cons_self _ _))
        have e2 := valOfBits_bits5 v2 (h2 v2 (List.mem_cons_self _ _))
        rw [← e1, ← e2, hh]
      subst hv
      have hr : r1 = r2 :=
        ih r2 (fun x hx => h1 x (List.mem_cons_of_mem _ hx))
          (fun x hx => h2 x (List.mem_cons_of_mem _ hx))
          (by simpa using hlen) ht
      rw [hr]

theorem base32Decode_ok_inv (s d : List Nat) (hok : base32Decode s = .ok d) :
    ∃ vs, b32Vals s = .ok vs ∧ s = vs.map b32Char ∧ (∀ v ∈ vs, v < 32) ∧
      vs.length = s.length ∧
      d = bytesOfBits (((vs.map bits5).flatten).take (8 * (s.length * 5 / 8))) ∧
      (((vs.map bits5).flatten).drop (8 * (s.length * 5 / 8))).any (fun b => b) = false := by
  unfold base32Decode at hok
  match hv : b32Vals s with
  | .error e => rw [hv] at hok; exact Except.noConfusion hok
  | .ok vs =>
    rw [hv] at hok
    dsimp only at hok
    obtain ⟨hs, hb⟩ := b32Vals_ok_inv s vs hv
    match hany : (((vs.map bits5).flatten).drop (8 * (s.length * 5 / 8))).any (fun b => b) with
    | true => rw [hany] at hok; exact Except.noConfusion hok
    | false =>
      rw [hany] at hok
      simp only [Bool.false_eq_true, if_false] at hok
      injection hok with hd
      exact ⟨vs, rfl, hs, hb, by rw [hs, List.length_map], hd.symm, hany⟩

theorem base32Decode_inj (s1 s2 d : List Nat) (hlen : s1.length = s2.length)
    (h1 : base32Decode s1 = .ok d) (h2 : base32Decode s2 = .ok d) : s1 = s2 := by
  obtain ⟨vs1, hv1, hs1, hb1, hl1, hd1, ha1⟩ := base32Decode_ok_inv s1 d h1
  obtain ⟨vs2, hv2, hs2, hb2, hl2, hd2, ha2⟩ := base32Decode_ok_inv s2 d h2
  have hnb : s1.length * 5 / 8 = s2.length * 5 / 8 := by rw [hlen]
  have hfl1 : ((vs1.map bits5).flatten).length = 5 * s1.length := by
    rw [flatten_map_bits5_length, hl1]
  have hfl2 : ((vs2.map bits5).flatten).length = 5 * s2.length := by
    rw [flatten_map_bits5_length, hl2]
  have htlen : 8 * (s1.length * 5 / 8) ≤ 5 * s1.length := by omega
  have htake : ((vs1.map bits5).flatten).take (8 * (s1.length * 5 / 8)) =
      ((vs2.map bits5).flatten).take (8 * (s2.length * 5 / 8)) := by
    have e1 : bitsOfBytes (bytesOfBits (((vs1.map bits5).flatten).take
        (8 * (s1.length * 5 / 8)))) =
        ((vs1.map bits5).flatten).take (8 * (s1.length * 5 / 8)) := by
      apply bitsOfBytes_bytesOfBits
      rw [List.length_take]
      omega
    have e2 : bitsOfBytes (bytesOfBits (((vs2.map bits5).flatten).take
        (8 * (s2.length * 5 / 8)))) =
        ((vs2.map bits5).flatten).take (8 * (s2.length * 5 / 8)) := by
      apply bitsOfBytes_bytesOfBits
      rw [List.length_take]
      omega
    rw [← e1, ← e2, ← hd1, ← hd2]
  have hdrop : ((vs1.map bits5).flatten).drop (8 * (s1.length * 5 / 8)) =
      ((vs2.map bits5).flatten).drop (8 * (s2.length * 5 / 8)) := by
    have r1 := all_false_eq_replicate _ ha1
    have r2 := all_false_eq_replicate _ ha2
    rw [r1, r2]
    congr 1
    rw [List.length_drop, List.length_drop, hfl1, hfl2, hlen]
  have hbits : (vs1.map bits5).flatten = (vs2.map bits5).flatten := by
    rw [← List.take_append_drop (8 * (s1.length * 5 / 8)) ((vs1.map bits5).flatten),
      htake, hdrop, List.take_append_drop]
  have hvs : vs1 = vs2 :=
    flatten_map_bits5_inj vs1 vs2 hb1 hb2 (by rw [hl1, hl2, hlen]) hbits
  rw [hs1, hs2, hvs]

theorem base32Decode_ok_length (s d : List Nat) (hok : base32Decode s = .ok d) :
    d.length = s.length * 5 / 8 := by
  obtain ⟨vs, _, _, _, hl, hd, _⟩ := base32Decode_ok_inv s d hok
  rw [hd, bytesOfBits_length, List.length_take]
  have hfl : ((vs.map bits5).flatten).length = 5 * s.length := by
    rw [flatten_map_bits5_length, hl]
  omega

/-! ### Address pipeline lemmas -/

theorem base32Encode_length (bs : List Nat) :
    (base32Encode bs).length = (8 * bs.length + 4) / 5 := by
  unfold base32Encode
  rw [List.length_map]
  have hflat := chunks5_map_bits5_flatten (bitsOfBytes bs)
  have hlenflat := flatten_map_bits5_length (chunks5 (bitsOfBytes bs))
  have hlb := bitsOfBytes_length bs
  rw [hflat] at hlenflat
  simp only [List.length_append, List.length_replicate, hlb] at hlenflat
  omega

theorem Protocol.fromByte_inv (n : Nat) (pr : Protocol)
    (h : Protocol.fromByte n = some pr) : n = pr.toByte := by
  simp only [Protocol.fromByte] at h
  by_cases h0 : n = 0
  · rw [if_pos h0] at h
    injection h with h1
    subst h1
    exact h0
  · rw [if_neg h0] at h
    by_cases h1 : n = 1
    · rw [if_pos h1] at h
      injection h with h2
      subst h2
      exact h1
    · rw [if_neg h1] at h
      by_cases h2 : n = 2
      · rw [if_pos h2] at h
        injection h with h3
        subst h3
        exact h2
      · rw [if_neg h2] at h
        by_cases h3 : n = 3
        · rw [if_pos h3] at h
          injection h with h4
          subst h4
          exact h3
        · rw [if_neg h3] at h
          exact Option.noConfusion h

theorem parseNetworkChar_toPrefixChar (net : Network) :
    parseNetworkChar net.toPrefixChar = .ok net := by
  cases net <;> rfl

theorem parseProtocolChar_toDigitChar (pr : Protocol) :
    parseProtocolChar pr.toDigitChar = .ok pr := by
  cases pr <;> rfl

theorem fromStr_cons_eval (H : List Nat → List Nat) (net : Network) (pr : Protocol)
    (body : List Nat) (hlen1 : body.length + 2 ≤ 86) (hlen2 : 1 ≤ body.length)
    (hpr : pr ≠ .ID) :
    fromStr H (net.toPrefixChar :: pr.toDigitChar :: body) =
      (match base32Decode body with
       | .error e => .error e
       | .ok payloadAll =>
         if payloadAll.length < 4 then .error .panicSplit
         else
           let cksm := payloadAll.drop (payloadAll.length - 4)
           let payload := payloadAll.take (payloadAll.length - 4)
           if (pr = .Secp256k1 ∨ pr = .Actor) ∧ payload.length ≠ 20 then
             .error .InvalidPayload
           else if pr = .BLS ∧ payload.length ≠ 48 then
             .error .InvalidPayload
           else
             if ¬ H (pr.toByte :: payload) = cksm then .error .InvalidChecksum
             else (Payload.new pr payload).map (fun p => ⟨net, p⟩)) := by
  have hno : ¬ ((net.toPrefixChar :: pr.toDigitChar :: body).length > MAX_ADDRESS_LEN ∨
      (net.toPrefixChar :: pr.toDigitChar :: body).length < 3) := by
    simp only [List.length_cons, MAX_ADDRESS_LEN]
    omega
  unfold fromStr
  rw [if_neg hno]
  dsimp only
  rw [parseNetworkChar_toPrefixChar]
  dsimp only
  rw [parseProtocolChar_toDigitChar]
  dsimp only
  rw [if_neg hpr]
  unfold fromStrBody
  rfl

theorem fromStr_encode_nonID (H : List Nat → List Nat) (Hg : HGood H) (a : Address)
    (hwf : a.WF) (hni : a.payload.protocol ≠ .ID) :
    fromStr H (encodeAddr H a) = .ok a := by
  obtain ⟨net, pl⟩ := a
  have hsplit : ∀ (pr : Protocol) (raw : List Nat), pr ≠ .ID → raw.length ≤ 48 →
      (∀ b ∈ raw, b < 256) →
      fromStr H (net.toPrefixChar :: pr.toDigitChar ::
          base32Encode (raw ++ H (pr.toByte :: raw))) =
        (if (pr = .Secp256k1 ∨ pr = .Actor) ∧ raw.length ≠ 20 then
           .error .InvalidPayload
         else if pr = .BLS ∧ raw.length ≠ 48 then
           .error .InvalidPayload
         else (Payload.new pr raw).map (fun p => (⟨net, p⟩ : Address))) := by
    intro pr raw hpr hsz hbytes
    have hH := Hg (pr.toByte :: raw)
    have hball : ∀ b ∈ raw ++ H (pr.toByte :: raw), b < 256 := by
      intro b hb
      rcases List.mem_append.mp hb with hb1 | hb2
      · exact hbytes b hb1
      · exact (hH.2) b hb2
    have hlenbz : (raw ++ H (pr.toByte :: raw)).length = raw.length + 4 := by
      rw [List.length_append, hH.1]
    have hblen : (base32Encode (raw ++ H (pr.toByte :: raw))).length =
        (8 * (raw.length + 4) + 4) / 5 := by
      rw [base32Encode_length, hlenbz]
    rw [fromStr_cons_eval H net pr _ (by rw [hblen]; omega) (by rw [hblen]; omega) hpr]
    rw [base32Decode_encode _ hball]
    dsimp only
    have hlt : ¬ (raw ++ H (pr.toByte :: raw)).length < 4 := by omega
    rw [if_neg hlt]
    have htk : (raw ++ H (pr.toByte :: raw)).take
        ((raw ++ H (pr.toByte :: raw)).length - 4) = raw := by
      rw [hlenbz]
      have : raw.length + 4 - 4 = raw.length := by omega
      rw [this, List.take_left]
    have hdp : (raw ++ H (pr.toByte :: raw)).drop
        ((raw ++ H (pr.toByte :: raw)).length - 4) = H (pr.toByte :: raw) := by
      rw [hlenbz]
      have : raw.length + 4 - 4 = raw.length := by omega
      rw [this, List.drop_left]
    rw [htk, hdp]
    by_cases hc1 : (pr = .Secp256k1 ∨ pr = .Actor) ∧ raw.length ≠ 20
    · rw [if_pos hc1, if_pos hc1]
    · rw [if_neg hc1, if_neg hc1]
      by_cases hc2 : pr = .BLS ∧ raw.length ≠ 48
      · rw [if_pos hc2, if_pos hc2]
      · rw [if_neg hc2, if_neg hc2]
        rw [if_neg (fun hcon => hcon rfl)]
  match pl, hwf, hni with
  | .ID id, _, hni => exact absurd rfl hni
  | .Secp256k1 raw, hwf, _ =>
    have h20 : raw.length = 20 := hwf.1
    have := hsplit .Secp256k1 raw (by simp) (by omega) hwf.2
    rw [show encodeAddr H ⟨net, .Secp256k1 raw⟩ =
        net.toPrefixChar :: Protocol.toDigitChar .Secp256k1 ::
          base32Encode (raw ++ H (Protocol.toByte .Secp256k1 :: raw)) from rfl]
    rw [this, if_neg (by simp [h20]), if_neg (by simp)]
    simp only [Payload.new, if_pos h20]
    rfl
  | .Actor raw, hwf, _ =>
    have h20 : raw.length = 20 := hwf.1
    have := hsplit .Actor raw (by simp) (by omega) hwf.2
    rw [show encodeAddr H ⟨net, .Actor raw⟩ =
        net.toPrefixChar :: Protocol.toDigitChar .Actor ::
          base32Encode (raw ++ H (Protocol.toByte .Actor :: raw)) from rfl]
    rw [this, if_neg (by simp [h20]), if_neg (by simp)]
    simp only [Payload.new, if_pos h20]
    rfl
  | .BLS raw, hwf, _ =>
    have h48 : raw.length = 48 := hwf.1
    have := hsplit .BLS raw (by simp) (by omega) hwf.2
    rw [show encodeAddr H ⟨net, .BLS raw⟩ =
        net.toPrefixChar :: Protocol.toDigitChar .BLS ::
          base32Encode (raw ++ H (Protocol.toByte .BLS :: raw)) from rfl]
    rw [this, if_neg (by simp), if_neg (by simp [h48])]
    simp only [Payload.new, if_pos h48]
    rfl

theorem pow_2_64_lt_pow_10_20 : (2 : Nat) ^ 64 < 10 ^ 20 := by
  norm_num

theorem fromStr_encode_ID (H : List Nat → List Nat) (net : Network) (id : Nat)
    (hid : id < 2 ^ 64) :
    fromStr H (encodeAddr H ⟨net, .ID id⟩) = .ok (Address.newId id) := by
  have henc : encodeAddr H ⟨net, .ID id⟩ = net.toPrefixChar :: 48 :: toDecimal id := by
    show net.toPrefixChar :: 48 ::
        toDecimal (expectOkNat (fromLebBytes (toLebBytes id))) = _
    rw [fromLeb_toLeb id hid]
    rfl
  rw [henc]
  have hlen20 : (toDecimal id).length ≤ 20 := by
    unfold toDecimal
    exact toDecimalAux_length_le (id + 1) id 20 (by omega)
      (lt_trans hid pow_2_64_lt_pow_10_20) (by omega)
  have hne : toDecimal id ≠ [] := toDecimalAux_ne_nil _ _ (by omega)
  have hlen1 : 1 ≤ (toDecimal id).length := by
    cases hd : toDecimal id with
    | nil => exact absurd hd hne
    | cons c cs => simp
  have hno : ¬ ((net.toPrefixChar :: 48 :: toDecimal id).length > MAX_ADDRESS_LEN ∨
      (net.toPrefixChar :: 48 :: toDecimal id).length < 3) := by
    simp only [List.length_cons, MAX_ADDRESS_LEN]
    omega
  have hparse := parseU64_toDecimal id hid
  unfold fromStr
  rw [if_neg hno]
  dsimp only
  rw [parseNetworkChar_toPrefixChar]
  dsimp only
  rw [show parseProtocolChar 48 = Except.ok Protocol.ID from rfl]
  dsimp only
  rw [if_pos rfl]
  unfold fromStrId
  rw [if_neg (by omega : ¬ (toDecimal id).length > 20), hparse]
  rfl

theorem toLebBytes_ne_nil (id : Nat) : toLebBytes id ≠ [] :=
  toLebBytesAux_ne_nil _ _ (by omega)

theorem fromBytes_toBytes (a : Address) (hwf : a.WF) :
    Address.fromBytes (Address.toBytes a) = .ok { a with network := NETWORK_DEFAULT } := by
  obtain ⟨net, pl⟩ := a
  match pl, hwf with
  | .ID id, hwf =>
    have hne := toLebBytes_ne_nil id
    have hlen : 1 ≤ (toLebBytes id).length := by
      cases hd : toLebBytes id with
      | nil => exact absurd hd hne
      | cons c cs => simp
    show Address.fromBytes (Protocol.toByte .ID :: toLebBytes id) = _
    unfold Address.fromBytes
    rw [if_neg (by have := hlen; simp only [List.length_cons]; omega)]
    dsimp only
    have hfb : Protocol.fromByte (Protocol.toByte .ID) = some .ID := rfl
    rw [hfb]
    show Except.map _ (Payload.new .ID (toLebBytes id)) = _
    unfold Payload.new
    dsimp only
    rw [fromLeb_toLeb id hwf]
    rfl
  | .Secp256k1 raw, hwf =>
    show Address.fromBytes (Protocol.toByte .Secp256k1 :: raw) = _
    unfold Address.fromBytes
    rw [if_neg (by have := hwf.1; simp only [List.length_cons]; omega)]
    dsimp only
    have hfb : Protocol.fromByte (Protocol.toByte .Secp256k1) = some .Secp256k1 := rfl
    rw [hfb]
    show Except.map _ (Payload.new .Secp256k1 raw) = _
    unfold Payload.new
    dsimp only
    rw [if_pos hwf.1]
    rfl
  | .Actor raw, hwf =>
    show Address.fromBytes (Protocol.toByte .Actor :: raw) = _
    unfold Address.fromBytes
    rw [if_neg (by have := hwf.1; simp only [List.length_cons]; omega)]
    dsimp only
    have hfb : Protocol.fromByte (Protocol.toByte .Actor) = some .Actor := rfl
    rw [hfb]
    show Except.map _ (Payload.new .Actor raw) = _
    unfold Payload.new
    dsimp only
    rw [if_pos hwf.1]
    rfl
  | .BLS raw, hwf =>
    show Address.fromBytes (Protocol.toByte .BLS :: raw) = _
    unfold Address.fromBytes
    rw [if_neg (by have := hwf.1; simp only [List.length_cons]; omega)]
    dsimp only
    have hfb : Protocol.fromByte (Protocol.toByte .BLS) = some .BLS := rfl
    rw [hfb]
    show Except.map _ (Payload.new .BLS raw) = _
    unfold Payload.new
    dsimp only
    rw [if_pos hwf.1]
    rfl

theorem fromBytes_ok_nonID_inv (b : List Nat) (a : Address)
    (hb : Address.fromBytes b = .ok a) (hni : a.payload.protocol ≠ .ID) :
    Address.toBytes a = b := by
  unfold Address.fromBytes at hb
  by_cases hlen : b.length < 2
  · rw [if_pos hlen] at hb
    exact absurd hb (exceptErrNeOk _ _)
  · rw [if_neg hlen] at hb
    match b, hlen with
    | pb :: rest, _ =>
      dsimp only at hb
      match hfb : Protocol.fromByte pb with
      | none => rw [hfb] at hb; exact absurd hb (exceptErrNeOk _ _)
      | some pr =>
        rw [hfb] at hb
        dsimp only at hb
        have hpb : pb = pr.toByte := Protocol.fromByte_inv pb pr hfb
        subst hpb
        match pr, hb with
        | .ID, hb =>
          unfold Payload.new at hb
          dsimp only at hb
          match hleb : fromLebBytes rest with
          | .error e => rw [hleb] at hb; exact absurd hb (exceptErrNeOk _ _)
          | .ok id =>
            rw [hleb] at hb
            injection hb with hb1
            rw [← hb1] at hni
            exact absurd rfl hni
        | .Secp256k1, hb =>
          unfold Payload.new at hb
          dsimp only at hb
          by_cases h20 : rest.length = 20
          · rw [if_pos h20] at hb
            injection hb with hb1
            rw [← hb1]
            rfl
          · rw [if_neg h20] at hb
            exact absurd hb (exceptErrNeOk _ _)
        | .Actor, hb =>
          unfold Payload.new at hb
          dsimp only at hb
          by_cases h20 : rest.length = 20
          · rw [if_pos h20] at hb
            injection hb with hb1
            rw [← hb1]
            rfl
          · rw [if_neg h20] at hb
            exact absurd hb (exceptErrNeOk _ _)
        | .BLS, hb =>
          unfold Payload.new at hb
          dsimp only at hb
          by_cases h48 : rest.length = 48
          · rw [if_pos h48] at hb
            injection hb with hb1
            rw [← hb1]
            rfl
          · rw [if_neg h48] at hb
            exact absurd hb (exceptErrNeOk _ _)

/-- C5 (counterexample): the claimed roundtrips fail as stated.  A Mainnet
ID address decodes from its binary form (and even from its textual form,
since `from_str`'s ID branch calls `Address::new_id`) as the *Testnet*
address, which differs from the original under the derived equality; and
the non-canonical LEB128 byte string `[0, 0x81, 0x00]` decodes to the ID-1
address whose re-encoding is `[0, 1] ≠ [0, 0x81, 0x00]`. -/
theorem address_roundtrip_counterexample :
    Address.fromBytes (Address.toBytes addrIdMainFix) = .ok ⟨.Testnet, .ID 0⟩ ∧
    (⟨.Testnet, .ID 0⟩ : Address) ≠ addrIdMainFix ∧
    fromStr H0 (encodeAddr H0 addrIdMainFix) = .ok ⟨.Testnet, .ID 0⟩ ∧
    Address.fromBytes [0, 129, 0] = .ok (Address.newId 1) ∧
    Address.toBytes (Address.newId 1) = [0, 1] ∧
    ([0, 1] : List Nat) ≠ [0, 129, 0] :=
  ⟨rfl, by decide, rfl, rfl, rfl, by decide⟩

/-- C5 (amended): for every well-formed address and every 4-byte checksum
hash, (i) the text form roundtrips exactly for non-ID addresses, while for
ID addresses the decoder returns the address with the *default* network
(`from_str`'s ID branch discards the parsed network); (ii) the binary form
roundtrips up to the network being reset to the default (`from_bytes`
carries no network information); (iii) re-encoding is left-inverse to
decoding for the fixed-width non-ID protocols — for ID payloads it can
differ on non-canonical LEB128 input (see the counterexample). -/
theorem address_codec_roundtrip (H : List Nat → List Nat) (Hg : HGood H)
    (a : Address) (hwf : a.WF) :
    fromStr H (encodeAddr H a) =
      .ok (match a.payload with
           | .ID _ => { a with network := NETWORK_DEFAULT }
           | _ => a) ∧
    Address.fromBytes (Address.toBytes a) = .ok { a with network := NETWORK_DEFAULT } ∧
    ∀ b, Address.fromBytes b = .ok a → a.payload.protocol ≠ .ID →
      Address.toBytes a = b := by
  refine ⟨?_, fromBytes_toBytes a hwf, fun b hb hni => fromBytes_ok_nonID_inv b a hb hni⟩
  obtain ⟨net, pl⟩ := a
  match pl, hwf with
  | .ID id, hwf => exact fromStr_encode_ID H net id hwf
  | .Secp256k1 raw, hwf =>
    exact fromStr_encode_nonID H Hg ⟨net, .Secp256k1 raw⟩ hwf (by simp [Payload.protocol])
  | .Actor raw, hwf =>
    exact fromStr_encode_nonID H Hg ⟨net, .Actor raw⟩ hwf (by simp [Payload.protocol])
  | .BLS raw, hwf =>
    exact fromStr_encode_nonID H Hg ⟨net, .BLS raw⟩ hwf (by simp [Payload.protocol])

/-- C5 (witness for the amended theorem): the Secp256k1 fixture address
roundtrips through both the textual and the binary codec under the
constant test hash. -/
theorem address_codec_roundtrip_witness :
    HGood H0 ∧ addrFix.WF ∧
    fromStr H0 (encodeAddr H0 addrFix) = .ok addrFix ∧
    Address.fromBytes (Address.toBytes addrFix) = .ok addrFix := by
  have hg : HGood H0 := fun x =>
    ⟨rfl, by
      intro b hb
      have hb0 : b = 0 := by simpa [H0] using hb
      omega⟩
  have hwf : addrFix.WF := by decide
  have h := address_codec_roundtrip H0 hg addrFix hwf
  exact ⟨hg, hwf, h.1, h.2.1⟩

/-! ### Single-character alteration of the textual form (from_str) -/

theorem b32Vals_error_eq (s : List Nat) (e : AddrError)
    (h : b32Vals s = .error e) : e = .InvalidPayload := by
  induction s with
  | nil => simp [b32Vals] at h
  | cons c rest ih =>
    unfold b32Vals at h
    match hv : b32Val c with
    | none =>
      rw [hv] at h
      injection h with h1
      exact h1.symm
    | some v =>
      rw [hv] at h
      dsimp only at h
      match hr : b32Vals rest with
      | .ok vs =>
        rw [hr] at h
        exact absurd h.symm (exceptErrNeOk _ _)
      | .error e2 =>
        rw [hr] at h
        injection h with h1
        rw [h1] at hr
        exact ih hr

theorem base32Decode_error_eq (s : List Nat) (e : AddrError)
    (h : base32Decode s = .error e) : e = .InvalidPayload := by
  unfold base32Decode at h
  match hv : b32Vals s with
  | .error e2 =>
    rw [hv] at h
    injection h with h1
    rw [← h1]
    exact b32Vals_error_eq s e2 hv
  | .ok vs =>
    rw [hv] at h
    dsimp only at h
    match hany : (((vs.map bits5).flatten).drop (8 * (s.length * 5 / 8))).any (fun b => b) with
    | true =>
      rw [hany] at h
      rw [if_pos rfl] at h
      injection h with h1
      exact h1.symm
    | false =>
      rw [hany] at h
      simp only [Bool.false_eq_true, if_false] at h
      exact absurd h.symm (exceptErrNeOk _ _)

set_option maxRecDepth 4000 in
theorem valOfBits_lt_256 :
    ∀ b0 b1 b2 b3 b4 b5 b6 b7 : Bool,
      valOfBits [b0, b1, b2, b3, b4, b5, b6, b7] < 256 := by decide

theorem bytesOfBits_lt_256 :
    ∀ l : List Bool, ∀ b ∈ bytesOfBits l, b < 256
  | [] => by intro b hb; simp [bytesOfBits] at hb
  | [a] => by
    have h : bytesOfBits [a] = [] := rfl
    rw [h]
    intro b hb
    simp at hb
  | [a, b'] => by
    have h : bytesOfBits [a, b'] = [] := rfl
    rw [h]
    intro b hb
    simp at hb
  | [a, b', c] => by
    have h : bytesOfBits [a, b', c] = [] := rfl
    rw [h]
    intro b hb
    simp at hb
  | [a, b', c, d] => by
    have h : bytesOfBits [a, b', c, d] = [] := rfl
    rw [h]
    intro b hb
    simp at hb
  | [a, b', c, d, e] => by
    have h : bytesOfBits [a, b', c, d, e] = [] := rfl
    rw [h]
    intro b hb
    simp at hb
  | [a, b', c, d, e, f] => by
    have h : bytesOfBits [a, b', c, d, e, f] = [] := rfl
    rw [h]
    intro b hb
    simp at hb
  | [a, b', c, d, e, f, g] => by
    have h : bytesOfBits [a, b', c, d, e, f, g] = [] := rfl
    rw [h]
    intro b hb
    simp at hb
  | b0 :: b1 :: b2 :: b3 :: b4 :: b5 :: b6 :: b7 :: rest => by
    rw [bytesOfBits_cons8]
    intro b hb
    rcases List.mem_cons.mp hb with hb1 | hb2
    · rw [hb1]
      exact valOfBits_lt_256 b0 b1 b2 b3 b4 b5 b6 b7
    · exact bytesOfBits_lt_256 rest b hb2

theorem base32Decode_ok_bytes (s d : List Nat) (hok : base32Decode s = .ok d) :
    ∀ b ∈ d, b < 256 := by
  obtain ⟨vs, _, _, _, _, hd, _⟩ := base32Decode_ok_inv s d hok
  rw [hd]
  exact bytesOfBits_lt_256 _

theorem parseNetworkChar_ok_inv (c : Nat) (net : Network)
    (h : parseNetworkChar c = .ok net) : c = net.toPrefixChar := by
  unfold parseNetworkChar at h
  by_cases h1 : c = 116
  · rw [if_pos h1] at h
    injection h with h2
    subst h2
    exact h1
  · rw [if_neg h1] at h
    by_cases h2 : c = 102
    · rw [if_pos h2] at h
      injection h with h3
      subst h3
      exact h2
    · rw [if_neg h2] at h
      exact absurd h (exceptErrNeOk _ _)

theorem parseProtocolChar_ok_inv (c : Nat) (pr : Protocol)
    (h : parseProtocolChar c = .ok pr) : c = pr.toDigitChar := by
  unfold parseProtocolChar at h
  by_cases h0 : c = 48
  · rw [if_pos h0] at h
    injection h with h1
    subst h1
    exact h0
  · rw [if_neg h0] at h
    by_cases h1 : c = 49
    · rw [if_pos h1] at h
      injection h with h2
      subst h2
      exact h1
    · rw [if_neg h1] at h
      by_cases h2 : c = 50
      · rw [if_pos h2] at h
        injection h with h3
        subst h3
        exact h2
      · rw [if_neg h2] at h
        by_cases h3 : c = 51
        · rw [if_pos h3] at h
          injection h with h4
          subst h4
          exact h3
        · rw [if_neg h3] at h
          exact absurd h (exceptErrNeOk _ _)

theorem fromStrId_ok_protocol (raw : List Nat) (a : Address)
    (h : fromStrId raw = .ok a) : a.payload.protocol = .ID := by
  unfold fromStrId at h
  by_cases hl : raw.length > 20
  · rw [if_pos hl] at h
    exact absurd h (exceptErrNeOk _ _)
  · rw [if_neg hl] at h
    match hp : parseU64 raw with
    | .error e =>
      rw [hp] at h
      exact absurd h (exceptErrNeOk _ _)
    | .ok v =>
      rw [hp] at h
      injection h with h1
      rw [← h1]
      rfl

theorem fromStr_ok_inv (H : List Nat → List Nat) (s : List Nat) (a : Address)
    (h : fromStr H s = .ok a) :
    ∃ c0 c1 body net pr, s = c0 :: c1 :: body ∧ body.length + 2 ≤ 86 ∧
      1 ≤ body.length ∧ parseNetworkChar c0 = .ok net ∧
      parseProtocolChar c1 = .ok pr ∧
      ((pr = .ID ∧ fromStrId body = .ok a) ∨
       (¬ pr = .ID ∧ fromStrBody H net pr body = .ok a)) := by
  unfold fromStr at h
  by_cases hl : s.length > MAX_ADDRESS_LEN ∨ s.length < 3
  · rw [if_pos hl] at h
    exact absurd h (exceptErrNeOk _ _)
  · rw [if_neg hl] at h
    push_neg at hl
    match s, h, hl with
    | [], h, _ => exact absurd h (exceptErrNeOk _ _)
    | [c], h, _ => exact absurd h (exceptErrNeOk _ _)
    | c0 :: c1 :: body, h, hl =>
      dsimp only at h
      match hn : parseNetworkChar c0 with
      | .error e =>
        rw [hn] at h
        exact absurd h (exceptErrNeOk _ _)
      | .ok net =>
        rw [hn] at h
        dsimp only at h
        match hpc : parseProtocolChar c1 with
        | .error e =>
          rw [hpc] at h
          exact absurd h (exceptErrNeOk _ _)
        | .ok pr =>
          rw [hpc] at h
          dsimp only at h
          refine ⟨c0, c1, body, net, pr, rfl, ?_, ?_, hn, hpc, ?_⟩
          · have h1 := hl.1
            simp only [List.length_cons, MAX_ADDRESS_LEN] at h1
            omega
          · have h2 := hl.2
            simp only [List.length_cons] at h2
            omega
          · by_cases hid : pr = .ID
            · rw [if_pos hid] at h
              exact Or.inl ⟨hid, h⟩
            · rw [if_neg hid] at h
              exact Or.inr ⟨hid, h⟩

theorem fromStrBody_ok_inv (H : List Nat → List Nat) (net : Network) (pr : Protocol)
    (raw : List Nat) (a : Address) (h : fromStrBody H net pr raw = .ok a) :
    ∃ dec, base32Decode raw = .ok dec ∧ 4 ≤ dec.length ∧
      ¬ ((pr = .Secp256k1 ∨ pr = .Actor) ∧ (dec.take (dec.length - 4)).length ≠ 20) ∧
      ¬ (pr = .BLS ∧ (dec.take (dec.length - 4)).length ≠ 48) ∧
      H (pr.toByte :: dec.take (dec.length - 4)) = dec.drop (dec.length - 4) ∧
      Payload.new pr (dec.take (dec.length - 4)) = .ok a.payload ∧
      a.network = net := by
  unfold fromStrBody at h
  match hdec : base32Decode raw with
  | .error e =>
    rw [hdec] at h
    exact absurd h (exceptErrNeOk _ _)
  | .ok dec =>
    rw [hdec] at h
    dsimp only at h
    by_cases h4 : dec.length < 4
    · rw [if_pos h4] at h
      exact absurd h (exceptErrNeOk _ _)
    · rw [if_neg h4] at h
      by_cases hc1 : (pr = .Secp256k1 ∨ pr = .Actor) ∧ (dec.take (dec.length - 4)).length ≠ 20
      · rw [if_pos hc1] at h
        exact absurd h (exceptErrNeOk _ _)
      · rw [if_neg hc1] at h
        by_cases hc2 : pr = .BLS ∧ (dec.take (dec.length - 4)).length ≠ 48
        · rw [if_pos hc2] at h
          exact absurd h (exceptErrNeOk _ _)
        · rw [if_neg hc2] at h
          by_cases hck : ¬ H (pr.toByte :: dec.take (dec.length - 4)) =
              dec.drop (dec.length - 4)
          · rw [if_pos hck] at h
            exact absurd h (exceptErrNeOk _ _)
          · rw [if_neg hck] at h
            push_neg at hck
            match hpn : Payload.new pr (dec.take (dec.length - 4)) with
            | .error e =>
              rw [hpn] at h
              exact absurd h (exceptErrNeOk _ _)
            | .ok p =>
              rw [hpn] at h
              injection h with h1
              refine ⟨dec, rfl, by omega, hc1, hc2, hck, ?_, ?_⟩
              · rw [← h1]
                exact hpn
              · rw [← h1]

theorem fromStrBody_eval (H : List Nat → List Nat) (net : Network) (pr : Protocol)
    (raw dec : List Nat) (hdec : base32Decode raw = .ok dec) (h4 : ¬ dec.length < 4) :
    fromStrBody H net pr raw =
      (if (pr = .Secp256k1 ∨ pr = .Actor) ∧ (dec.take (dec.length - 4)).length ≠ 20 then
         .error .InvalidPayload
       else if pr = .BLS ∧ (dec.take (dec.length - 4)).length ≠ 48 then
         .error .InvalidPayload
       else if ¬ H (pr.toByte :: dec.take (dec.length - 4)) = dec.drop (dec.length - 4) then
         .error .InvalidChecksum
       else (Payload.new pr (dec.take (dec.length - 4))).map
         (fun p => (⟨net, p⟩ : Address))) := by
  unfold fromStrBody
  rw [hdec]
  dsimp only
  rw [if_neg h4]

theorem fromStr_cons_body (H : List Nat → List Nat) (net : Network) (pr : Protocol)
    (body : List Nat) (hlen1 : body.length + 2 ≤ 86) (hlen2 : 1 ≤ body.length)
    (hpr : pr ≠ .ID) :
    fromStr H (net.toPrefixChar :: pr.toDigitChar :: body) = fromStrBody H net pr body := by
  have hno : ¬ ((net.toPrefixChar :: pr.toDigitChar :: body).length > MAX_ADDRESS_LEN ∨
      (net.toPrefixChar :: pr.toDigitChar :: body).length < 3) := by
    simp only [List.length_cons, MAX_ADDRESS_LEN]
    omega
  unfold fromStr
  rw [if_neg hno]
  dsimp only
  rw [parseNetworkChar_toPrefixChar]
  dsimp only
  rw [parseProtocolChar_toDigitChar]
  dsimp only
  rw [if_neg hpr]

theorem fromStr_eval_badnet (H : List Nat → List Nat) (c0 c1 : Nat) (body : List Nat)
    (hlen1 : body.length + 2 ≤ 86) (hlen2 : 1 ≤ body.length)
    (h1 : c0 ≠ 116) (h2 : c0 ≠ 102) :
    fromStr H (c0 :: c1 :: body) = .error .UnknownNetwork := by
  have hno : ¬ ((c0 :: c1 :: body).length > MAX_ADDRESS_LEN ∨
      (c0 :: c1 :: body).length < 3) := by
    simp only [List.length_cons, MAX_ADDRESS_LEN]
    omega
  unfold fromStr
  rw [if_neg hno]
  dsimp only
  unfold parseNetworkChar
  rw [if_neg h1, if_neg h2]

theorem fromStr_eval_badproto (H : List Nat → List Nat) (net : Network) (c1 : Nat)
    (body : List Nat) (hlen1 : body.length + 2 ≤ 86) (hlen2 : 1 ≤ body.length)
    (h0 : c1 ≠ 48) (h1 : c1 ≠ 49) (h2 : c1 ≠ 50) (h3 : c1 ≠ 51) :
    fromStr H (net.toPrefixChar :: c1 :: body) = .error .UnknownProtocol := by
  have hno : ¬ ((net.toPrefixChar :: c1 :: body).length > MAX_ADDRESS_LEN ∨
      (net.toPrefixChar :: c1 :: body).length < 3) := by
    simp only [List.length_cons, MAX_ADDRESS_LEN]
    omega
  unfold fromStr
  rw [if_neg hno]
  dsimp only
  rw [parseNetworkChar_toPrefixChar]
  dsimp only
  unfold parseProtocolChar
  rw [if_neg h0, if_neg h1, if_neg h2, if_neg h3]

theorem fromStr_eval_id (H : List Nat → List Nat) (net : Network) (body : List Nat)
    (hlen1 : body.length + 2 ≤ 86) (hlen2 : 1 ≤ body.length) :
    fromStr H (net.toPrefixChar :: 48 :: body) = fromStrId body := by
  have hno : ¬ ((net.toPrefixChar :: 48 :: body).length > MAX_ADDRESS_LEN ∨
      (net.toPrefixChar :: 48 :: body).length < 3) := by
    simp only [List.length_cons, MAX_ADDRESS_LEN]
    omega
  unfold fromStr
  rw [if_neg hno]
  dsimp only
  rw [parseNetworkChar_toPrefixChar]
  dsimp only
  rw [show parseProtocolChar 48 = Except.ok Protocol.ID from rfl]
  dsimp only
  rw [if_pos rfl]

theorem set_ne_of_get_ne {α : Type} :
    ∀ (l : List α) (q : Nat) (c : α) (hq : q < l.length),
      l.get ⟨q, hq⟩ ≠ c → l.set q c ≠ l
  | [], q, c, hq, _ => by simp at hq
  | a :: l, 0, c, hq, h => by
    intro he
    rw [show (a :: l).set 0 c = c :: l from rfl] at he
    injection he with h1 h2
    exact h h1.symm
  | a :: l, q + 1, c, hq, h => by
    intro he
    rw [show (a :: l).set (q + 1) c = a :: l.set q c from rfl] at he
    injection he with h1 h2
    have hq2 : q < l.length := Nat.lt_of_succ_lt_succ hq
    have h3 : l.get ⟨q, hq2⟩ ≠ c := h
    exact set_ne_of_get_ne l q c hq2 h3 h2

theorem Payload.new_same_length (pr : Protocol) (hpr : pr ≠ .ID) (t1 t2 : List Nat)
    (hl : t1.length = t2.length) (p1 : Payload) (h1 : Payload.new pr t1 = .ok p1) :
    ∃ p2, Payload.new pr t2 = .ok p2 ∧ (p1 = p2 → t1 = t2) := by
  match pr, hpr, h1 with
  | .ID, hpr, _ => exact absurd rfl hpr
  | .Secp256k1, _, h1 =>
    unfold Payload.new at h1 ⊢
    dsimp only at h1 ⊢
    by_cases h20 : t1.length = 20
    · rw [if_pos h20] at h1
      injection h1 with he
      refine ⟨.Secp256k1 t2, by rw [if_pos (by omega)], ?_⟩
      intro hp
      rw [← he] at hp
      injection hp with ht
    · rw [if_neg h20] at h1
      exact absurd h1 (exceptErrNeOk _ _)
  | .Actor, _, h1 =>
    unfold Payload.new at h1 ⊢
    dsimp only at h1 ⊢
    by_cases h20 : t1.length = 20
    · rw [if_pos h20] at h1
      injection h1 with he
      refine ⟨.Actor t2, by rw [if_pos (by omega)], ?_⟩
      intro hp
      rw [← he] at hp
      injection hp with ht
    · rw [if_neg h20] at h1
      exact absurd h1 (exceptErrNeOk _ _)
  | .BLS, _, h1 =>
    unfold Payload.new at h1 ⊢
    dsimp only at h1 ⊢
    by_cases h48 : t1.length = 48
    · rw [if_pos h48] at h1
      injection h1 with he
      refine ⟨.BLS t2, by rw [if_pos (by omega)], ?_⟩
      intro hp
      rw [← he] at hp
      injection hp with ht
    · rw [if_neg h48] at h1
      exact absurd h1 (exceptErrNeOk _ _)

/-- C6 (counterexample): the textual address "t01" (the ID address 1) is
valid, and altering its first character gives the different string "f01"
on which `from_str` still returns `Ok` — in fact the *same* address, since
the ID branch discards the parsed network — contradicting the claim that
every single-character alteration yields `InvalidChecksum` or
`InvalidPayload`. -/
theorem address_alteration_counterexample :
    fromStr H0 [116, 48, 49] = .ok (Address.newId 1) ∧
    List.set [116, 48, 49] 0 102 = [102, 48, 49] ∧
    (116 : Nat) ≠ 102 ∧
    fromStr H0 [102, 48, 49] = .ok (Address.newId 1) :=
  ⟨rfl, rfl, by decide, rfl⟩

/-- C6 (amended): for every valid *non-ID* textual address and every
single-character alteration producing a different string, `from_str` on
the altered string returns one of the errors `UnknownNetwork`,
`UnknownProtocol`, `InvalidLength`, `InvalidPayload`, `InvalidChecksum`,
or `Ok` of an address *different* from the original (the latter occurs
when the network prefix or the protocol digit is changed to another valid
one and the checksum — which covers the protocol byte and payload but not
the network — still matches).  The original claim's "InvalidChecksum or
InvalidPayload (never Ok, never a different error variant)" is refuted by
the counterexample. -/
theorem address_single_char_alteration (H : List Nat → List Nat)
    (s : List Nat) (a : Address) (p c : Nat)
    (hs : fromStr H s = .ok a) (hni : a.payload.protocol ≠ .ID)
    (hp : p < s.length) (hneq : s.get ⟨p, hp⟩ ≠ c) :
    (∃ e, fromStr H (s.set p c) = .error e ∧
       (e = .UnknownNetwork ∨ e = .UnknownProtocol ∨ e = .InvalidLength ∨
        e = .InvalidPayload ∨ e = .InvalidChecksum)) ∨
    (∃ b, fromStr H (s.set p c) = .ok b ∧ b ≠ a) := by
  obtain ⟨c0, c1, body, net, pr, hseq, hl86, hl1, hnet, hprc, hbranch⟩ :=
    fromStr_ok_inv H s a hs
  rcases hbranch with ⟨hid, hfid⟩ | ⟨hid, hbody⟩
  · exact absurd (fromStrId_ok_protocol body a hfid) hni
  have hc0 : c0 = net.toPrefixChar := parseNetworkChar_ok_inv c0 net hnet
  have hc1 : c1 = pr.toDigitChar := parseProtocolChar_ok_inv c1 pr hprc
  subst hseq
  subst hc0
  subst hc1
  obtain ⟨dec, hdec, h4, hcnd1, hcnd2, hck, hpn, hanet⟩ :=
    fromStrBody_ok_inv H net pr body a hbody
  have htl : (dec.take (dec.length - 4)).length = dec.length - 4 := by
    rw [List.length_take]
    omega
  have hdlen : dec.length = body.length * 5 / 8 := base32Decode_ok_length body dec hdec
  have hplen : (dec.length = 24 ∧ (pr = .Secp256k1 ∨ pr = .Actor)) ∨
      (dec.length = 52 ∧ pr = .BLS) := by
    match pr, hid, hcnd1, hcnd2 with
    | .ID, hid, _, _ => exact absurd rfl hid
    | .Secp256k1, _, hcnd1, _ =>
      push_neg at hcnd1
      have h20 := hcnd1 (Or.inl rfl)
      exact Or.inl ⟨by omega, Or.inl rfl⟩
    | .Actor, _, hcnd1, _ =>
      push_neg at hcnd1
      have h20 := hcnd1 (Or.inr rfl)
      exact Or.inl ⟨by omega, Or.inr rfl⟩
    | .BLS, _, _, hcnd2 =>
      push_neg at hcnd2
      have h48 := hcnd2 rfl
      exact Or.inr ⟨by omega, rfl⟩
  have hbig : 20 < body.length := by
    rcases hplen with ⟨h24, _⟩ | ⟨h52, _⟩ <;> omega
  match p, hp, hneq with
  | 0, hp, hneq =>
    have hx : net.toPrefixChar ≠ c := hneq
    rw [show (net.toPrefixChar :: pr.toDigitChar :: body).set 0 c =
        c :: pr.toDigitChar :: body from rfl]
    by_cases hc116 : c = 116
    · subst hc116
      have hnetM : net = .Mainnet := by
        cases net
        · exact absurd rfl hx
        · rfl
      right
      refine ⟨⟨.Testnet, a.payload⟩, ?_, ?_⟩
      · rw [show (116 : Nat) = Network.toPrefixChar .Testnet from rfl,
          fromStr_cons_body H .Testnet pr body hl86 hl1 hid,
          fromStrBody_eval H .Testnet pr body dec hdec (by omega),
          if_neg hcnd1, if_neg hcnd2, if_neg (fun hcon => hcon hck), hpn]
        rfl
      · intro hb
        have h1 : Network.Testnet = a.network := congrArg Address.network hb
        rw [hanet, hnetM] at h1
        exact Network.noConfusion h1
    · by_cases hc102 : c = 102
      · subst hc102
        have hnetT : net = .Testnet := by
          cases net
          · rfl
          · exact absurd rfl hx
        right
        refine ⟨⟨.Mainnet, a.payload⟩, ?_, ?_⟩
        · rw [show (102 : Nat) = Network.toPrefixChar .Mainnet from rfl,
            fromStr_cons_body H .Mainnet pr body hl86 hl1 hid,
            fromStrBody_eval H .Mainnet pr body dec hdec (by omega),
            if_neg hcnd1, if_neg hcnd2, if_neg (fun hcon => hcon hck), hpn]
          rfl
        · intro hb
          have h1 : Network.Mainnet = a.network := congrArg Address.network hb
          rw [hanet, hnetT] at h1
          exact Network.noConfusion h1
      · left
        exact ⟨.UnknownNetwork,
          fromStr_eval_badnet H c pr.toDigitChar body hl86 hl1 hc116 hc102, Or.inl rfl⟩
  | 1, hp, hneq =>
    have hy : pr.toDigitChar ≠ c := hneq
    rw [show (net.toPrefixChar :: pr.toDigitChar :: body).set 1 c =
        net.toPrefixChar :: c :: body from rfl]
    by_cases hc48 : c = 48
    · subst hc48
      left
      refine ⟨.InvalidLength, ?_, Or.inr (Or.inr (Or.inl rfl))⟩
      rw [fromStr_eval_id H net body hl86 hl1]
      unfold fromStrId
      rw [if_pos (by omega)]
    · by_cases hc49 : c = 49
      · subst hc49
        have hprS : pr ≠ .Secp256k1 := fun hE => hy (by rw [hE]; rfl)
        rw [show (49 : Nat) = Protocol.toDigitChar .Secp256k1 from rfl,
          fromStr_cons_body H net .Secp256k1 body hl86 hl1 (by decide),
          fromStrBody_eval H net .Secp256k1 body dec hdec (by omega)]
        rcases hplen with ⟨h24, hSA⟩ | ⟨h52, hB⟩
        · rcases hSA with hE | hA
          · exact absurd hE hprS
          · subst hA
            unfold Payload.new at hpn
            dsimp only at hpn
            rw [if_pos (by omega)] at hpn
            injection hpn with ha
            rw [if_neg (fun hand => hand.2 (by omega)),
              if_neg (fun hand => Protocol.noConfusion hand.1)]
            by_cases hH : H (Protocol.toByte .Secp256k1 :: dec.take (dec.length - 4)) =
                dec.drop (dec.length - 4)
            · rw [if_neg (fun hcon => hcon hH),
                show Payload.new .Secp256k1 (dec.take (dec.length - 4)) =
                  .ok (.Secp256k1 (dec.take (dec.length - 4))) from by
                    unfold Payload.new
                    dsimp only
                    rw [if_pos (by omega)]]
              right
              refine ⟨⟨net, .Secp256k1 (dec.take (dec.length - 4))⟩, rfl, ?_⟩
              intro hb
              have h1 : Payload.Secp256k1 (dec.take (dec.length - 4)) = a.payload :=
                congrArg Address.payload hb
              rw [← ha] at h1
              exact Payload.noConfusion h1
            · rw [if_pos hH]
              exact Or.inl ⟨.InvalidChecksum, rfl,
                Or.inr (Or.inr (Or.inr (Or.inr rfl)))⟩
        · rw [if_pos ⟨Or.inl rfl, by omega⟩]
          exact Or.inl ⟨.InvalidPayload, rfl, Or.inr (Or.inr (Or.inr (Or.inl rfl)))⟩
      · by_cases hc50 : c = 50
        · subst hc50
          have hprA : pr ≠ .Actor := fun hE => hy (by rw [hE]; rfl)
          rw [show (50 : Nat) = Protocol.toDigitChar .Actor from rfl,
            fromStr_cons_body H net .Actor body hl86 hl1 (by decide),
            fromStrBody_eval H net .Actor body dec hdec (by omega)]
          rcases hplen with ⟨h24, hSA⟩ | ⟨h52, hB⟩
          · rcases hSA with hE | hA
            · subst hE
              unfold Payload.new at hpn
              dsimp only at hpn
              rw [if_pos (by omega)] at hpn
              injection hpn with ha
              rw [if_neg (fun hand => hand.2 (by omega)),
                if_neg (fun hand => Protocol.noConfusion hand.1)]
              by_cases hH : H (Protocol.toByte .Actor :: dec.take (dec.length - 4)) =
                  dec.drop (dec.length - 4)
              · rw [if_neg (fun hcon => hcon hH),
                  show Payload.new .Actor (dec.take (dec.length - 4)) =
                    .ok (.Actor (dec.take (dec.length - 4))) from by
                      unfold Payload.new
                      dsimp only
                      rw [if_pos (by omega)]]
                right
                refine ⟨⟨net, .Actor (dec.take (dec.length - 4))⟩, rfl, ?_⟩
                intro hb
                have h1 : Payload.Actor (dec.take (dec.length - 4)) = a.payload :=
                  congrArg Address.payload hb
                rw [← ha] at h1
                exact Payload.noConfusion h1
              · rw [if_pos hH]
                exact Or.inl ⟨.InvalidChecksum, rfl,
                  Or.inr (Or.inr (Or.inr (Or.inr rfl)))⟩
            · exact absurd hA hprA
          · rw [if_pos ⟨Or.inr rfl, by omega⟩]
            exact Or.inl ⟨.InvalidPayload, rfl, Or.inr (Or.inr (Or.inr (Or.inl rfl)))⟩
        · by_cases hc51 : c = 51
          · subst hc51
            have hprB : pr ≠ .BLS := fun hE => hy (by rw [hE]; rfl)
            rw [show (51 : Nat) = Protocol.toDigitChar .BLS from rfl,
              fromStr_cons_body H net .BLS body hl86 hl1 (by decide),
              fromStrBody_eval H net .BLS body dec hdec (by omega)]
            rcases hplen with ⟨h24, hSA⟩ | ⟨h52, hB⟩
            · rw [if_neg (fun hand => by
                  rcases hand.1 with hE | hE <;> exact Protocol.noConfusion hE),
                if_pos ⟨rfl, by omega⟩]
              exact Or.inl ⟨.InvalidPayload, rfl,
                Or.inr (Or.inr (Or.inr (Or.inl rfl)))⟩
            · exact absurd hB hprB
          · left
            exact ⟨.UnknownProtocol,
              fromStr_eval_badproto H net c body hl86 hl1 hc48 hc49 hc50 hc51,
              Or.inr (Or.inl rfl)⟩
  | q + 2, hp, hneq =>
    have hq : q < body.length := by
      have hql := hp
      simp only [List.length_cons] at hql
      omega
    have hgb : body.get ⟨q, hq⟩ ≠ c := hneq
    rw [show (net.toPrefixChar :: pr.toDigitChar :: body).set (q + 2) c =
        net.toPrefixChar :: pr.toDigitChar :: body.set q c from rfl]
    have hlset : (body.set q c).length = body.length := by simp
    rw [fromStr_cons_body H net pr (body.set q c) (by omega) (by omega) hid]
    match hdec2 : base32Decode (body.set q c) with
    | .error e =>
      left
      refine ⟨.InvalidPayload, ?_, Or.inr (Or.inr (Or.inr (Or.inl rfl)))⟩
      unfold fromStrBody
      rw [hdec2, base32Decode_error_eq _ e hdec2]
    | .ok dec2 =>
      have hlen2 : dec2.length = dec.length := by
        rw [base32Decode_ok_length _ _ hdec2, hdlen, hlset]
      have hdne : dec2 ≠ dec := by
        intro hE
        apply set_ne_of_get_ne body q c hq hgb
        exact base32Decode_inj (body.set q c) body dec (by rw [hlset])
          (hE ▸ hdec2) hdec
      have htl2 : (dec2.take (dec2.length - 4)).length = dec2.length - 4 := by
        rw [List.length_take]
        omega
      rw [fromStrBody_eval H net pr (body.set q c) dec2 hdec2 (by omega),
        if_neg (fun hand => hcnd1 ⟨hand.1, by omega⟩),
        if_neg (fun hand => hcnd2 ⟨hand.1, by omega⟩)]
      by_cases hH : H (pr.toByte :: dec2.take (dec2.length - 4)) =
          dec2.drop (dec2.length - 4)
      · rw [if_neg (fun hcon => hcon hH)]
        obtain ⟨p2, hp2, hinj⟩ := Payload.new_same_length pr hid
          (dec.take (dec.length - 4)) (dec2.take (dec2.length - 4)) (by omega)
          a.payload hpn
        rw [hp2]
        right
        refine ⟨⟨net, p2⟩, rfl, ?_⟩
        intro hb
        have hpay : p2 = a.payload := congrArg Address.payload hb
        have hteq : dec.take (dec.length - 4) = dec2.take (dec2.length - 4) :=
          hinj hpay.symm
        have hdropeq : dec.drop (dec.length - 4) = dec2.drop (dec2.length - 4) := by
          rw [← hck, ← hH, hteq]
        have hde : dec = dec2 := by
          rw [← List.take_append_drop (dec.length - 4) dec,
            ← List.take_append_drop (dec2.length - 4) dec2, hteq, hdropeq]
        exact hdne hde.symm
      · rw [if_pos hH]
        exact Or.inl ⟨.InvalidChecksum, rfl, Or.inr (Or.inr (Or.inr (Or.inr rfl)))⟩

/-- C6 (witness for the amended theorem): the all-zero Secp256k1 Testnet
address under the constant test hash, with the network character altered
to an invalid one. -/
theorem address_single_char_alteration_witness :
    (∃ e, fromStr H0 ((116 :: 49 :: List.replicate 39 97).set 0 120) = .error e ∧
       (e = .UnknownNetwork ∨ e = .UnknownProtocol ∨ e = .InvalidLength ∨
        e = .InvalidPayload ∨ e = .InvalidChecksum)) ∨
    (∃ b, fromStr H0 ((116 :: 49 :: List.replicate 39 97).set 0 120) = .ok b ∧
       b ≠ ⟨.Testnet, .Secp256k1 (List.replicate 20 0)⟩) :=
  address_single_char_alteration H0 (116 :: 49 :: List.replicate 39 97)
    ⟨.Testnet, .Secp256k1 (List.replicate 20 0)⟩ 0 120
    rfl (by decide) (by decide) (by decide)


end Forest
